import Mathlib

/-!
Verification development for the LLVM-IR-Divergence-Analyzer repository.

The Python sources (src/normalizer.py, src/parser.py, src/analyzer.py,
src/data_types.py) are shallowly embedded below as executable Lean
functions over `List Char` / `String`.  Conventions of the embedding:

* Python strings are `String`, manipulated through their `List Char` data.
* Python regular expressions are compiled by hand to deterministic
  character scanners with exactly the matching semantics of the concrete
  pattern used in the source (leftmost, greedy/lazy as written,
  non-overlapping for `re.sub`).  `\s` and `\w` are modelled with their
  ASCII meaning.
* Recursions that consume more than one character per step take an
  explicit fuel argument (instantiated with the length of the input),
  so that every definition is executable by the kernel.
* File I/O: the parser writes each extracted block to a file and the
  analyzer later reads it back through `PassDump.file_path`; soundly
  modelled by storing the extracted text in the `content` field of
  `PassDump`.
-/

namespace IRDA

/-- ASCII whitespace, as recognised by Python `str.strip` and `\s`. -/
def isPySpace (c : Char) : Bool :=
  c == ' ' || c == '\t' || c == '\n' || c == '\r' ||
  c == Char.ofNat 11 || c == Char.ofNat 12

/-- Word character for `\b` / `\w`: `[a-zA-Z0-9_]`. -/
def isWordChar (c : Char) : Bool :=
  c.isAlpha || c.isDigit || c == '_'

/-- First character of an identifier: `[a-zA-Z_]`. -/
def isAlphaUnd (c : Char) : Bool :=
  c.isAlpha || c == '_'

/-- Python `str.lstrip()`. -/
def lstripChars (l : List Char) : List Char :=
  l.dropWhile isPySpace

/-- Python `str.rstrip()`. -/
def rstripChars (l : List Char) : List Char :=
  (l.reverse.dropWhile isPySpace).reverse

/-- Python `str.strip()`. -/
def stripChars (l : List Char) : List Char :=
  lstripChars (rstripChars l)

/-- Python `str.split('\n')`. -/
def splitLines : List Char → List (List Char)
  | [] => [[]]
  | c :: rest =>
    if c = '\n' then [] :: splitLines rest
    else
      match splitLines rest with
      | [] => [[c]]
      | h :: t => (c :: h) :: t

/-- Python `'\n'.join(...)`. -/
def joinLines (ls : List (List Char)) : List Char :=
  List.intercalate ['\n'] ls

/-- `ComparisonConfig` from src/data_types.py (defaults as in the source). -/
structure ComparisonConfig where
  ignore_whitespace : Bool := true
  ignore_empty_lines : Bool := true
  ignore_temp_vars : Bool := true
  ignore_labels : Bool := true
  ignore_metadata : Bool := true
  ignore_debug_info : Bool := true
  ignore_comments : Bool := false
  verbose : Bool := false
  quiet : Bool := false
  excluded_legacy_passes : List String := []
  excluded_npm_passes : List String := []
deriving DecidableEq, Repr

/-! ## Normalizer (src/normalizer.py) -/

/-- `self.comment_pattern.sub('', line)` for the pattern `;.*$`:
everything from the first `;` on is removed. -/
def commentSub (l : List Char) : List Char :=
  l.takeWhile (fun c => c != ';')

/-- The literal head `, !dbg !` of the debug-info pattern. -/
def debugLit : List Char := ", !dbg !".data

/-- Does `l` begin with a match of `, !dbg ![0-9]+` ? -/
def isDebugStart (l : List Char) : Bool :=
  debugLit.isPrefixOf l &&
    (match (l.drop 8).head? with
     | some c => c.isDigit
     | none => false)

/-- Scanner for `self.debug_info_pattern.sub('', line)`,
pattern `, !dbg ![0-9]+`: left-to-right, greedy digits, non-overlapping. -/
def debugSubAux : Nat → List Char → List Char
  | 0, l => l
  | _ + 1, [] => []
  | n + 1, c :: rest =>
    if isDebugStart (c :: rest) then
      debugSubAux n (((c :: rest).drop 8).dropWhile Char.isDigit)
    else
      c :: debugSubAux n rest

def debugSub (l : List Char) : List Char :=
  debugSubAux l.length l

/-- Match of the temp-var pattern `%[a-zA-Z_][a-zA-Z0-9_]*\.?[0-9]*`
anchored at the head of `l`; returns `(matched token, remainder)`. -/
def tempTokenSplit : List Char → Option (List Char × List Char)
  | c0 :: c1 :: rest =>
    if c0 = '%' ∧ isAlphaUnd c1 then
      let nm := (c1 :: rest).takeWhile isWordChar
      match (c1 :: rest).dropWhile isWordChar with
      | c2 :: r2 =>
        if c2 = '.' then
          some ('%' :: nm ++ '.' :: r2.takeWhile Char.isDigit,
                r2.dropWhile Char.isDigit)
        else some ('%' :: nm, c2 :: r2)
      | [] => some ('%' :: nm, [])
    else none
  | _ => none

/-- Association-list model of a Python `dict` (insertion order kept). -/
def lookupAssoc (m : List (List Char × List Char)) (k : List Char) :
    Option (List Char) :=
  match m with
  | [] => none
  | (a, b) :: t => if a = k then some b else lookupAssoc t k

/-- The canonical replacement `f'%temp_{counter}'`. -/
def tempName (counter : Nat) : List Char :=
  '%' :: 't' :: 'e' :: 'm' :: 'p' :: '_' :: (Nat.repr counter).data

/-- The canonical replacement `f'label_{counter}'`. -/
def labelName (counter : Nat) : List Char :=
  'l' :: 'a' :: 'b' :: 'e' :: 'l' :: '_' :: (Nat.repr counter).data

/-- `self.temp_var_pattern.sub(replace_temp_var, line)` together with the
  `(counter, var_map)` accumulator of `_normalize_temp_vars`. -/
def tempVarSubAux :
    Nat → List Char → Nat → List (List Char × List Char) →
    List Char × Nat × List (List Char × List Char)
  | 0, l, c, m => (l, c, m)
  | _ + 1, [], c, m => ([], c, m)
  | n + 1, ch :: rest, c, m =>
    match tempTokenSplit (ch :: rest) with
    | some (tok, r) =>
      match lookupAssoc m tok with
      | some repl =>
        let o := tempVarSubAux n r c m
        (repl ++ o.1, o.2)
      | none =>
        let repl := tempName c
        let o := tempVarSubAux n r (c + 1) (m ++ [(tok, repl)])
        (repl ++ o.1, o.2)
    | none =>
      let o := tempVarSubAux n rest c m
      (ch :: o.1, o.2)

/-- `_normalize_temp_vars(line, counter, var_map)` from src/normalizer.py. -/
def normalizeTempVars (l : List Char) (c : Nat)
    (m : List (List Char × List Char)) :
    List Char × Nat × List (List Char × List Char) :=
  tempVarSubAux l.length l c m

/-- Anchored match of the label pattern
`^([a-zA-Z_][a-zA-Z0-9_]*\.?[0-9]*):`; returns `(group 1, rest)`. -/
def labelDefSplit : List Char → Option (List Char × List Char)
  | [] => none
  | c :: rest =>
    if isAlphaUnd c then
      let nm := c :: rest.takeWhile isWordChar
      match rest.dropWhile isWordChar with
      | '.' :: r2 =>
        match r2.dropWhile Char.isDigit with
        | ':' :: r4 => some (nm ++ '.' :: r2.takeWhile Char.isDigit, r4)
        | _ => none
      | ':' :: r4 => some (nm, r4)
      | _ => none
    else none

/-- Word-character test on an optional character (`none` = string edge,
which counts as a non-word position for `\b`). -/
def isWordB : Option Char → Bool
  | some c => isWordChar c
  | none => false

/-- `\b` holds between two (optional) characters iff exactly one side is
a word character. -/
def wordBoundary (a b : Option Char) : Bool :=
  isWordB a != isWordB b

/-- Scanner for `re.sub(rf'\b{re.escape(orig)}\b', repl, l)`:
left-to-right over the original string, non-overlapping matches,
`prev` is the character just before the current position. -/
def wbAux (orig repl : List Char) : Nat → Option Char → List Char → List Char
  | 0, _, l => l
  | _ + 1, _, [] => []
  | n + 1, prev, c :: rest =>
    if orig.isPrefixOf (c :: rest) &&
       wordBoundary prev (some c) &&
       wordBoundary orig.getLast? ((c :: rest).drop orig.length).head? then
      repl ++ wbAux orig repl n orig.getLast? ((c :: rest).drop orig.length)
    else
      c :: wbAux orig repl n (some c) rest

def wbSub (orig repl l : List Char) : List Char :=
  if orig.isEmpty then l else wbAux orig repl l.length none l

/-- Python `str.rstrip(':')` (applied to a label replacement). -/
def rstripColon (l : List Char) : List Char :=
  (l.reverse.dropWhile (fun c => c == ':')).reverse

/-- `_normalize_labels(line, counter, label_map)` from src/normalizer.py:
anchored definition rewrite, then one `\b`-substitution pass per map
entry in insertion order. -/
def normalizeLabels (line : List Char) (c : Nat)
    (m : List (List Char × List Char)) :
    List Char × Nat × List (List Char × List Char) :=
  let step :
      List Char × Nat × List (List Char × List Char) :=
    match labelDefSplit line with
    | some (g, rest) =>
      match lookupAssoc m g with
      | some repl => (repl ++ ':' :: rest, c, m)
      | none =>
        let repl := labelName c
        (repl ++ ':' :: rest, c + 1, m ++ [(g, repl)])
    | none => (line, c, m)
  let line2 :=
    step.2.2.foldl (fun acc p => wbSub p.1 (rstripColon p.2) acc) step.1
  (line2, step.2.1, step.2.2)

/-- One step of `re.sub(r'\s+', ' ', line)`: collapse whitespace runs,
`prevSpace` tracks whether the previous character was collapsed. -/
def collapseWsAux : Bool → List Char → List Char
  | _, [] => []
  | prevSpace, c :: rest =>
    if isPySpace c then
      if prevSpace then collapseWsAux true rest
      else ' ' :: collapseWsAux true rest
    else c :: collapseWsAux false rest

/-- `_normalize_whitespace(line)` from src/normalizer.py. -/
def normalizeWhitespace (l : List Char) : List Char :=
  stripChars (collapseWsAux false l)

/-- The per-run accumulator of `IRNormalizer.normalize`:
temp-var counter/map and label counter/map. -/
structure NormState where
  tc : Nat
  tm : List (List Char × List Char)
  lc : Nat
  lm : List (List Char × List Char)
deriving DecidableEq, Repr

def NormState.init : NormState := ⟨0, [], 0, []⟩

/-- The transformation chain of the `for line in lines` loop of
`IRNormalizer.normalize` (comments, debug info, labels, temp vars,
whitespace, in the order of the source), returning the rewritten line
and the updated accumulator. -/
def transformLine (cfg : ComparisonConfig) (line : List Char)
    (st : NormState) : List Char × NormState :=
  let l1 := if cfg.ignore_comments then commentSub line else line
  let l2 := if cfg.ignore_debug_info then debugSub l1 else l1
  let r3 := if cfg.ignore_labels then normalizeLabels l2 st.lc st.lm
            else (l2, st.lc, st.lm)
  let r4 := if cfg.ignore_temp_vars then normalizeTempVars r3.1 st.tc st.tm
            else (r3.1, st.tc, st.tm)
  let l5 := if cfg.ignore_whitespace then normalizeWhitespace r4.1 else r4.1
  (l5, ⟨r4.2.1, r4.2.2, r3.2.1, r3.2.2⟩)

/-- The body of the `for line in lines` loop of `IRNormalizer.normalize`:
returns the emitted line (if any) and the updated accumulator. -/
def processLine (cfg : ComparisonConfig) (line : List Char)
    (st : NormState) : Option (List Char) × NormState :=
  if cfg.ignore_empty_lines && (stripChars line).isEmpty then
    (none, st)
  else if cfg.ignore_metadata &&
      (match stripChars line with | '!' :: _ => true | _ => false) then
    (none, st)
  else if (stripChars (transformLine cfg line st).1).isEmpty then
    (none, (transformLine cfg line st).2)
  else
    (some (transformLine cfg line st).1, (transformLine cfg line st).2)

/-- The line loop of `IRNormalizer.normalize`. -/
def normalizeLinesAux (cfg : ComparisonConfig) :
    List (List Char) → NormState → List (List Char)
  | [], _ => []
  | l :: rest, st =>
    match processLine cfg l st with
    | (some out, st') => out :: normalizeLinesAux cfg rest st'
    | (none, st') => normalizeLinesAux cfg rest st'

/-- `IRNormalizer.normalize(ir_content)` from src/normalizer.py. -/
def normalize (cfg : ComparisonConfig) (ir_content : String) : String :=
  ⟨joinLines (normalizeLinesAux cfg (splitLines ir_content.data) .init)⟩

/-! ## Parser (src/parser.py) -/

/-- `ParsedHeader` from src/data_types.py. -/
structure ParsedHeader where
  pass_name : String
  original_line : String
  line_number : Nat
  dump_type : String
  target : String
deriving DecidableEq, Repr

/-- `PassDump` from src/data_types.py.  `file_path` pointed at the file
holding the extracted text; the `content` field carries that text. -/
structure PassDump where
  pass_name : String
  pass_index : Nat
  content : String
deriving DecidableEq, Repr

/-- The literal part of the legacy banner pattern
`^\s*#?\s*\*\*\* IR Dump After (.+) \*\*\*:?`. -/
def legacyLit : List Char := "*** IR Dump After ".data

/-- The separator ` ***` closing both banner groups. -/
def starsLit : List Char := " ***".data

/-- Greedy split for `(.+) \*\*\*`: the group extends to the last
position (at least one character in) where ` ***` starts. -/
def lastStarsSplit : List Char → Option (List Char)
  | [] => none
  | c :: rest =>
    match lastStarsSplit rest with
    | some g => some (c :: g)
    | none => if starsLit.isPrefixOf rest then some [c] else none

/-- The `#?\s*` part of the legacy pattern: one optional `#` marker
followed by more whitespace. -/
def legacyHashSkip (l1 : List Char) : List Char :=
  match l1 with
  | c :: r => if c = '#' then r.dropWhile isPySpace else l1
  | [] => l1

/-- `self.legacy_pattern.match(line)`, returning `match.group(1)`. -/
def legacyMatch (line : List Char) : Option (List Char) :=
  if legacyLit.isPrefixOf (legacyHashSkip (line.dropWhile isPySpace)) then
    lastStarsSplit
      ((legacyHashSkip (line.dropWhile isPySpace)).drop legacyLit.length)
  else none

/-- Scanner for `re.findall(r'\(([^)]+)\)', content)` (fuelled). -/
def parenGroupsAux : Nat → List Char → List (List Char)
  | 0, _ => []
  | _ + 1, [] => []
  | n + 1, c :: rest =>
    if c = '(' then
      match rest.dropWhile (fun x => x != ')') with
      | ')' :: r2 =>
        let g := rest.takeWhile (fun x => x != ')')
        if g.isEmpty then parenGroupsAux n rest else g :: parenGroupsAux n r2
      | _ => []
    else parenGroupsAux n rest

def parenGroups (l : List Char) : List (List Char) :=
  parenGroupsAux l.length l

/-- `IRDumpParser._extract_last_parentheses(content)`. -/
def extractLastParens (content : List Char) : List Char :=
  match (parenGroups content).getLast? with
  | some g => stripChars g
  | none => stripChars content

/-- The anchored literal of the NPM banner pattern
`; \*\*\* IR Dump After (.+?) on (.+?) \*\*\*`. -/
def npmLit : List Char := "; *** IR Dump After ".data

/-- The literal ` on ` between the two NPM groups. -/
def onLit : List Char := " on ".data

/-- Lazy split for `(.+?) \*\*\*`: the group stops at the first position
(at least one character in) where ` ***` starts. -/
def firstStarsSplit : List Char → Option (List Char)
  | [] => none
  | c :: rest =>
    if starsLit.isPrefixOf rest then some [c]
    else (firstStarsSplit rest).map (fun g => c :: g)

/-- Lazy split for `(.+?) on (.+?) \*\*\*` with backtracking: the first
group takes the earliest ` on ` whose tail still matches. -/
def npmGroupsSplit : List Char → Option (List Char × List Char)
  | [] => none
  | c :: rest =>
    if onLit.isPrefixOf rest then
      match firstStarsSplit (rest.drop 4) with
      | some g2 => some ([c], g2)
      | none => (npmGroupsSplit rest).map (fun p => (c :: p.1, p.2))
    else (npmGroupsSplit rest).map (fun p => (c :: p.1, p.2))

/-- `self.npm_pattern.match(line)`, returning the two groups. -/
def npmMatch (line : List Char) : Option (List Char × List Char) :=
  if npmLit.isPrefixOf line then
    npmGroupsSplit (line.drop npmLit.length)
  else none

/-- `IRDumpParser._find_legacy_headers`: 1-based line numbers, lines
right-stripped before matching. -/
def findLegacyHeadersAux : Nat → List (List Char) → List ParsedHeader
  | _, [] => []
  | ln, line :: rest =>
    let l := rstripChars line
    match legacyMatch l with
    | some g =>
      { pass_name := ⟨extractLastParens (stripChars g)⟩
        original_line := ⟨l⟩
        line_number := ln
        dump_type := "unknown"
        target := "unknown" } :: findLegacyHeadersAux (ln + 1) rest
    | none => findLegacyHeadersAux (ln + 1) rest

def findLegacyHeaders (lines : List (List Char)) : List ParsedHeader :=
  findLegacyHeadersAux 1 lines

/-- `IRDumpParser._find_npm_headers`. -/
def findNpmHeadersAux : Nat → List (List Char) → List ParsedHeader
  | _, [] => []
  | ln, line :: rest =>
    let l := rstripChars line
    match npmMatch l with
    | some (g1, g2) =>
      let target := stripChars g2
      (if target = "[module]".data then
        { pass_name := ⟨stripChars g1⟩, original_line := ⟨l⟩,
          line_number := ln, dump_type := "module", target := "module" }
       else
        { pass_name := ⟨stripChars g1⟩, original_line := ⟨l⟩,
          line_number := ln, dump_type := "function",
          target := ⟨target⟩ }) :: findNpmHeadersAux (ln + 1) rest
    | none => findNpmHeadersAux (ln + 1) rest

def findNpmHeaders (lines : List (List Char)) : List ParsedHeader :=
  findNpmHeadersAux 1 lines

/-- `IRDumpParser._extract_ir_content(lines, start_line, end_line)`:
the guard `start_line >= len(lines)`, the slice
`lines[start_line - 1 : end_line - 1]`, and the per-line
`line.rstrip() + '\n'` cleanup. -/
def extractIrContent (lines : List (List Char)) (s e : Nat) : List Char :=
  if lines.length ≤ s then []
  else
    let content := (lines.drop (s - 1)).take ((e - 1) - (s - 1))
    (content.map (fun l => rstripChars l ++ ['\n'])).flatten

/-- The extraction loop shared by `extract_legacy_dumps` and
`extract_npm_dumps`: for header `i`, content runs from its line + 1 to the
next header line (or `len(lines)` for the last header). -/
def extractDumpsAux (lines : List (List Char)) :
    Nat → List ParsedHeader → List PassDump
  | _, [] => []
  | i, h :: t =>
    let e := match t with
             | h2 :: _ => h2.line_number
             | [] => lines.length
    { pass_name := h.pass_name
      pass_index := i
      content := ⟨extractIrContent lines (h.line_number + 1) e⟩ } ::
      extractDumpsAux lines (i + 1) t

/-- `IRDumpParser.extract_legacy_dumps` (file writes modelled by the
`content` field). -/
def extractLegacyDumps (lines : List (List Char)) : List PassDump :=
  extractDumpsAux lines 0 (findLegacyHeaders lines)

/-- `IRDumpParser.extract_npm_dumps`. -/
def extractNpmDumps (lines : List (List Char)) : List PassDump :=
  extractDumpsAux lines 0 (findNpmHeaders lines)

/-! ## Analyzer (src/analyzer.py) -/

/-- Association-list model of the JSON pass-mapping `dict`. -/
def lookupStr (m : List (String × String)) (k : String) : Option String :=
  match m with
  | [] => none
  | (a, b) :: t => if a = k then some b else lookupStr t k

/-- `IRDivergenceAnalyzer._find_valid_npm_match`: the earliest NPM pass
with the wanted name, unused index, index strictly past the last one. -/
def findValidNpmMatchAux (name : String) (used : List Nat) (last : Int) :
    Nat → List PassDump → Option (Nat × PassDump)
  | _, [] => none
  | i, b :: bs =>
    if b.pass_name = name ∧ i ∉ used ∧ last < (i : Int) then some (i, b)
    else findValidNpmMatchAux name used last (i + 1) bs

def findValidNpmMatch (npmDumps : List PassDump) (name : String)
    (used : List Nat) (last : Int) : Option (Nat × PassDump) :=
  findValidNpmMatchAux name used last 0 npmDumps

/-- The loop of `IRDivergenceAnalyzer._create_chronological_mapping`,
threading `used_npm_indices` and `last_npm_index`.  Python's
`if not npm_pass_name` treats both a missing entry and the empty string
as falsy. -/
def createChronologicalMappingAux (cfg : ComparisonConfig)
    (mapping : List (String × String)) (npmDumps : List PassDump) :
    List PassDump → List Nat → Int →
    List (PassDump × PassDump) × List String
  | [], _, _ => ([], [])
  | a :: rest, used, last =>
    if a.pass_name ∈ cfg.excluded_legacy_passes then
      createChronologicalMappingAux cfg mapping npmDumps rest used last
    else
      match lookupStr mapping a.pass_name with
      | none =>
        let r := createChronologicalMappingAux cfg mapping npmDumps rest used last
        (r.1, a.pass_name :: r.2)
      | some t =>
        if t = "" then
          let r := createChronologicalMappingAux cfg mapping npmDumps rest used last
          (r.1, a.pass_name :: r.2)
        else if t ∈ cfg.excluded_npm_passes then
          createChronologicalMappingAux cfg mapping npmDumps rest used last
        else
          match findValidNpmMatch npmDumps t used last with
          | some (i, b) =>
            let r := createChronologicalMappingAux cfg mapping npmDumps rest
                       (i :: used) (i : Int)
            ((a, b) :: r.1, r.2)
          | none =>
            let r := createChronologicalMappingAux cfg mapping npmDumps rest used last
            (r.1, a.pass_name :: r.2)

/-- `IRDivergenceAnalyzer._create_chronological_mapping`: returns
`(mapped_pairs, skipped_legacy)`. -/
def createChronologicalMapping (cfg : ComparisonConfig)
    (mapping : List (String × String))
    (legacyDumps npmDumps : List PassDump) :
    List (PassDump × PassDump) × List String :=
  createChronologicalMappingAux cfg mapping npmDumps legacyDumps [] (-1)

/-- The two `continue` branches of `_create_chronological_mapping` that
record a legacy pass in the local `explicitly_excluded` list rather than
in `skipped_legacy`: its own name is in the legacy exclusion set, or its
mapping entry exists, is non-empty, and is in the NPM exclusion set. -/
def excludedByConfig (cfg : ComparisonConfig)
    (mapping : List (String × String)) (a : PassDump) : Bool :=
  decide (a.pass_name ∈ cfg.excluded_legacy_passes) ||
    (match lookupStr mapping a.pass_name with
     | some t => decide (t ≠ "") && decide (t ∈ cfg.excluded_npm_passes)
     | none => false)

/-- The result dictionary of `_find_first_divergence`. -/
inductive DivergenceResult where
  | noDivergence : DivergenceResult
  | divergence (index : Nat) (legacy_pass npm_pass : PassDump)
      (last_common_index : Option Nat)
      (last_common_legacy last_common_npm : Option PassDump)
      (legacy_ir npm_ir : String) : DivergenceResult
deriving DecidableEq, Repr

/-- `mapped_pairs[i-1]` seen from the scan loop: the last element of the
pairs already handled, or the incoming `prev` when none were. -/
def lastOr {α : Type} (l : List α) (prev : Option α) : Option α :=
  match l.getLast? with
  | some r => some r
  | none => prev

/-- The loop of `IRDivergenceAnalyzer._find_first_divergence`; `prev` is
`mapped_pairs[i-1]` (the pair just handled). -/
def findFirstDivergenceAux (cfg : ComparisonConfig) :
    List (PassDump × PassDump) → Nat → Option (PassDump × PassDump) →
    DivergenceResult
  | [], _, _ => .noDivergence
  | (lp, np) :: rest, i, prev =>
    let lir := normalize cfg lp.content
    let nir := normalize cfg np.content
    if lir ≠ nir then
      .divergence i lp np (if i = 0 then none else some (i - 1))
        (prev.map Prod.fst) (prev.map Prod.snd) lir nir
    else findFirstDivergenceAux cfg rest (i + 1) (some (lp, np))

/-- `IRDivergenceAnalyzer._find_first_divergence(mapped_pairs)`
(each side's file is loaded and normalized; the file text is the
`content` field). -/
def findFirstDivergence (cfg : ComparisonConfig)
    (mapped_pairs : List (PassDump × PassDump)) : DivergenceResult :=
  findFirstDivergenceAux cfg mapped_pairs 0 none

/-! ## Concrete configurations used in the claim analyses -/

/-- Options with only temp-var and label renaming enabled. -/
def cfgRenames : ComparisonConfig :=
  { ignore_whitespace := false, ignore_empty_lines := false,
    ignore_temp_vars := true, ignore_labels := true,
    ignore_metadata := false, ignore_debug_info := false,
    ignore_comments := false }

/-- Options with label renaming and whitespace collapsing enabled. -/
def cfgLabelWs : ComparisonConfig :=
  { ignore_whitespace := true, ignore_empty_lines := false,
    ignore_temp_vars := false, ignore_labels := true,
    ignore_metadata := false, ignore_debug_info := false,
    ignore_comments := false }

/-- Options with every transformation disabled (in particular the
drop-blank-lines option). -/
def cfgNothing : ComparisonConfig :=
  { ignore_whitespace := false, ignore_empty_lines := false,
    ignore_temp_vars := false, ignore_labels := false,
    ignore_metadata := false, ignore_debug_info := false,
    ignore_comments := false }

/-! ## Theorems -/

/-- Claim C3 (code-bug evidence).  Input file with one header at line 1
followed by the two content lines `a` and `b`.  The claim (and spec)
say the last header's content runs through end of input, i.e.
`"a\nb\n"`.  The code computes `end_line = len(lines)` and then slices
`lines[start_line - 1 : end_line - 1]`, which drops the final line of
the file: the extracted content is `"a\n"`. -/
theorem claim_C3_code_divergence :
    extractLegacyDumps
        ["*** IR Dump After foo (p) ***".data, "a".data, "b".data] =
      [{ pass_name := "p", pass_index := 0, content := "a\n" }] ∧
    (["a".data, "b".data].map (fun l => rstripChars l ++ ['\n'])).flatten
      = "a\nb\n".data ∧
    (extractLegacyDumps
        ["*** IR Dump After foo (p) ***".data, "a".data, "b".data]).map
      PassDump.content ≠ ["a\nb\n"] := by
  refine ⟨rfl, rfl, ?_⟩
  decide

/-- Claim C4 (code-bug evidence).  The two blocks are identical up to the
consistent label-token renaming `x ↦ a`, `y ↦ label_0` (applied at every
token-boundary occurrence), and temp-var and label renaming are enabled.
`normalize` still distinguishes them: on the second block the rewriting
loop of `_normalize_labels` first rewrites the reference `a` to
`label_0` and the later iteration for the original label `label_0`
then rewrites that freshly produced text again, yielding
`br label_1 label_1` instead of `br label_0 label_1`. -/
theorem claim_C4_code_divergence :
    normalize cfgRenames "x:\ny:\nbr x y"
        = "label_0:\nlabel_1:\nbr label_0 label_1" ∧
    normalize cfgRenames "a:\nlabel_0:\nbr a label_0"
        = "label_0:\nlabel_1:\nbr label_1 label_1" ∧
    normalize cfgRenames "x:\ny:\nbr x y"
        ≠ normalize cfgRenames "a:\nlabel_0:\nbr a label_0" := by
  refine ⟨rfl, rfl, ?_⟩
  decide

/-- Claim C5 (code-bug evidence).  `normalize` is not idempotent: on the
line `"  x:"` the anchored label pattern does not match (leading
whitespace), whitespace collapsing then produces `"x:"`, and a second
`normalize` run now recognises and renames the label, giving
`"label_0:"`. -/
theorem claim_C5_code_divergence :
    normalize cfgLabelWs "  x:" = "x:" ∧
    normalize cfgLabelWs (normalize cfgLabelWs "  x:") = "label_0:" ∧
    normalize cfgLabelWs (normalize cfgLabelWs "  x:")
      ≠ normalize cfgLabelWs "  x:" := by
  refine ⟨rfl, rfl, ?_⟩
  decide

/-- Claim C8 counterexample.  With every option disabled (in particular
the drop-blank-lines option), the blank middle line of `"a\n\nb"` is
affected by no enabled transformation, yet it is dropped by the final
`if normalized_line.strip()` filter of `normalize`. -/
theorem claim_C8_counterexample :
    normalize cfgNothing "a\n\nb" = "a\nb" ∧
    normalize cfgNothing "a\n\nb" ≠ "a\n\nb" := by
  refine ⟨rfl, ?_⟩
  decide

/-- Claim C9.  `IRNormalizer.normalize` reads only the configuration and
per-call local state, so the embedding is a pure function of
`(options, text)`; consequently, in any sequence of calls (the analyzer
normalizes many extracted blocks in a run) the output of a call depends
only on its own text and options: the last call of `prior ++ [t]`
returns the same result however the earlier call list `prior` is
replaced. -/
theorem claim_C9_normalize_deterministic :
    ∀ (cfg : ComparisonConfig) (prior other : List String) (t : String),
      ((prior ++ [t]).map (normalize cfg)).getLast? =
        ((other ++ [t]).map (normalize cfg)).getLast? := by
  intro cfg prior other t
  simp

/-- Any hit of `_find_valid_npm_match` is strictly past `last` and is
the list element at its reported index. -/
theorem findValidNpmMatchAux_spec :
    ∀ (bs : List PassDump) (name : String) (used : List Nat) (last : Int)
      (i0 i : Nat) (b : PassDump),
      findValidNpmMatchAux name used last i0 bs = some (i, b) →
      last < (i : Int) ∧ i0 ≤ i ∧ bs[i - i0]? = some b := by
  intro bs
  induction bs with
  | nil =>
    intro name used last i0 i b h
    simp [findValidNpmMatchAux] at h
  | cons hd tl ih =>
    intro name used last i0 i b h
    rw [findValidNpmMatchAux] at h
    split at h
    · rename_i hcond
      have hp := Option.some.inj h
      have hi : i0 = i := congrArg Prod.fst hp
      have hb : hd = b := congrArg Prod.snd hp
      subst hi
      subst hb
      exact ⟨hcond.2.2, le_refl _, by simp⟩
    · obtain ⟨h1, h2, h3⟩ := ih name used last (i0 + 1) i b h
      refine ⟨h1, by omega, ?_⟩
      rw [show i - i0 = (i - (i0 + 1)) + 1 from by omega]
      simpa using h3

/-- Invariant of the alignment loop: under the parser guarantee that
`pass_index` equals list position, the NPM-side indices of the emitted
pairs are all strictly greater than `last` and form a `<`-chain. -/
theorem ccmAux_pairs_mono (cfg : ComparisonConfig)
    (mapping : List (String × String)) (npmDumps : List PassDump)
    (hidx : ∀ k (h : k < npmDumps.length),
      (npmDumps.get ⟨k, h⟩).pass_index = k) :
    ∀ (legacy : List PassDump) (used : List Nat) (last : Int),
      List.Chain' (· < ·)
        (((createChronologicalMappingAux cfg mapping npmDumps legacy used
            last).1).map (fun p => p.2.pass_index)) ∧
      ∀ x ∈ ((((createChronologicalMappingAux cfg mapping npmDumps legacy used
          last).1).map (fun p => p.2.pass_index) : List Nat)),
        last < (x : Int) := by
  intro legacy
  induction legacy with
  | nil =>
    intro used last
    simp [createChronologicalMappingAux]
  | cons a rest ih =>
    intro used last
    rw [createChronologicalMappingAux]
    split
    · exact ih used last
    · split
      · simpa using ih used last
      · rename_i hlook
        rename_i t
        split
        · simpa using ih used last
        · split
          · exact ih used last
          · split
            · rename_i hmatch
              rename_i i b
              have hspec := findValidNpmMatchAux_spec npmDumps t used last 0 i b
                (by simpa [findValidNpmMatch] using hmatch)
              obtain ⟨hlast, -, hget⟩ := hspec
              rw [Nat.sub_zero] at hget
              have hilen : i < npmDumps.length := by
                by_contra hc
                rw [List.getElem?_eq_none (by omega)] at hget
                exact Option.noConfusion hget
              have hbi : b.pass_index = i := by
                have := hidx i hilen
                rw [List.getElem?_eq_getElem hilen] at hget
                have hb : npmDumps.get ⟨i, hilen⟩ = b := by
                  simpa [List.get_eq_getElem] using Option.some.inj hget
                rw [← hb]
                exact this
              obtain ⟨ihc, ihall⟩ := ih (i :: used) (i : Int)
              constructor
              · rw [List.map_cons, List.chain'_cons']
                refine ⟨?_, ihc⟩
                intro y hy
                have hmem : y ∈ ((((createChronologicalMappingAux cfg mapping
                    npmDumps rest (i :: used) (i : Int)).1).map
                    (fun p => p.2.pass_index) : List Nat)) :=
                  List.mem_of_mem_head? hy
                have := ihall y hmem
                rw [hbi]
                exact_mod_cast this
              · intro x hx
                rw [List.map_cons, List.mem_cons] at hx
                rcases hx with rfl | hx
                · rw [hbi]; exact hlast
                · exact lt_trans hlast (ihall x hx)
            · simpa using ih used last

/-- Claim C2.  For every input, under the parser guarantee that
`pass_index` equals discovery position (which `extract_legacy_dumps` /
`extract_npm_dumps` establish by construction), the NPM-side indices of
the pair list produced by `_create_chronological_mapping` are strictly
increasing in emission order, and no NPM index is used twice. -/
theorem claim_C2_alignment_b_indices :
    ∀ (cfg : ComparisonConfig) (mapping : List (String × String))
      (legacyDumps npmDumps : List PassDump),
      (∀ k (h : k < npmDumps.length),
        (npmDumps.get ⟨k, h⟩).pass_index = k) →
      List.Chain' (· < ·)
        (((createChronologicalMapping cfg mapping legacyDumps npmDumps).1).map
          (fun p => p.2.pass_index)) ∧
      (((createChronologicalMapping cfg mapping legacyDumps npmDumps).1).map
          (fun p => p.2.pass_index)).Nodup := by
  intro cfg mapping legacyDumps npmDumps hidx
  have h := ccmAux_pairs_mono cfg mapping npmDumps hidx legacyDumps [] (-1)
  refine ⟨h.1, ?_⟩
  have hp := List.chain'_iff_pairwise.mp h.1
  exact hp.imp Nat.ne_of_lt

/-- Witness for C2: the alignment scenario of spec §8 (pairs `(0,0)` and
`(1,2)`, NPM index 1 left unconsumed). -/
theorem claim_C2_witness :
    List.Chain' (· < ·)
      (((createChronologicalMapping {}
          [("InstCombine", "instcombine"), ("early-cse", "early-cse")]
          [⟨"InstCombine", 0, ""⟩, ⟨"early-cse", 1, ""⟩]
          [⟨"instcombine", 0, ""⟩, ⟨"simplifycfg", 1, ""⟩,
           ⟨"early-cse", 2, ""⟩]).1).map (fun p => p.2.pass_index)) ∧
    (((createChronologicalMapping {}
        [("InstCombine", "instcombine"), ("early-cse", "early-cse")]
        [⟨"InstCombine", 0, ""⟩, ⟨"early-cse", 1, ""⟩]
        [⟨"instcombine", 0, ""⟩, ⟨"simplifycfg", 1, ""⟩,
         ⟨"early-cse", 2, ""⟩]).1).map (fun p => p.2.pass_index)).Nodup :=
  claim_C2_alignment_b_indices {}
    [("InstCombine", "instcombine"), ("early-cse", "early-cse")]
    [⟨"InstCombine", 0, ""⟩, ⟨"early-cse", 1, ""⟩]
    [⟨"instcombine", 0, ""⟩, ⟨"simplifycfg", 1, ""⟩, ⟨"early-cse", 2, ""⟩]
    (by decide)

/-- Invariant of the alignment loop for the skipped list: it is a
subsequence of the names of the non-excluded legacy passes (hence in
original order), and every non-excluded legacy pass is either emitted in
a pair or has its name in the skipped list. -/
theorem ccmAux_unmatched (cfg : ComparisonConfig)
    (mapping : List (String × String)) (npmDumps : List PassDump) :
    ∀ (legacy : List PassDump) (used : List Nat) (last : Int),
      ((createChronologicalMappingAux cfg mapping npmDumps legacy used
          last).2).Sublist
        ((legacy.filter (fun a => !(excludedByConfig cfg mapping a))).map
          (fun a => a.pass_name)) ∧
      ∀ a ∈ legacy, excludedByConfig cfg mapping a = false →
        (∃ p ∈ (createChronologicalMappingAux cfg mapping npmDumps legacy
            used last).1, p.1 = a) ∨
        a.pass_name ∈ (createChronologicalMappingAux cfg mapping npmDumps
            legacy used last).2 := by
  intro legacy
  induction legacy with
  | nil =>
    intro used last
    simp [createChronologicalMappingAux]
  | cons a rest ih =>
    intro used last
    rw [createChronologicalMappingAux]
    split
    · rename_i hexa
      have hexc : excludedByConfig cfg mapping a = true := by
        simp [excludedByConfig, hexa]
      constructor
      · rw [List.filter_cons_of_neg (by simp [hexc])]
        exact (ih used last).1
      · intro x hx hxe
        rcases List.mem_cons.mp hx with rfl | hx
        · rw [hexc] at hxe; exact Bool.noConfusion hxe
        · exact (ih used last).2 x hx hxe
    · rename_i hexa
      split
      · rename_i hlook
        have hexc : excludedByConfig cfg mapping a = false := by
          simp [excludedByConfig, hexa, hlook]
        constructor
        · rw [List.filter_cons_of_pos (by simp [hexc]), List.map_cons]
          exact (ih used last).1.cons₂ a.pass_name
        · intro x hx hxe
          rcases List.mem_cons.mp hx with rfl | hx
          · right; simp
          · rcases (ih used last).2 x hx hxe with ⟨p, hp, hpe⟩ | hsk
            · exact Or.inl ⟨p, hp, hpe⟩
            · right; simp [hsk]
      · rename_i hlook
        rename_i t
        split
        · rename_i ht
          have hexc : excludedByConfig cfg mapping a = false := by
            simp [excludedByConfig, hexa, hlook, ht]
          constructor
          · rw [List.filter_cons_of_pos (by simp [hexc]), List.map_cons]
            exact (ih used last).1.cons₂ a.pass_name
          · intro x hx hxe
            rcases List.mem_cons.mp hx with rfl | hx
            · right; simp
            · rcases (ih used last).2 x hx hxe with ⟨p, hp, hpe⟩ | hsk
              · exact Or.inl ⟨p, hp, hpe⟩
              · right; simp [hsk]
        · rename_i ht
          split
          · rename_i htb
            have hexc : excludedByConfig cfg mapping a = true := by
              simp [excludedByConfig, hlook, ht, htb]
            constructor
            · rw [List.filter_cons_of_neg (by simp [hexc])]
              exact (ih used last).1
            · intro x hx hxe
              rcases List.mem_cons.mp hx with rfl | hx
              · rw [hexc] at hxe; exact Bool.noConfusion hxe
              · exact (ih used last).2 x hx hxe
          · rename_i htb
            have hexc : excludedByConfig cfg mapping a = false := by
              simp [excludedByConfig, hexa, hlook, ht, htb]
            split
            · rename_i hmatch
              rename_i i b
              constructor
              · rw [List.filter_cons_of_pos (by simp [hexc]), List.map_cons]
                exact ((ih (i :: used) (i : Int)).1).cons a.pass_name
              · intro x hx hxe
                rcases List.mem_cons.mp hx with rfl | hx
                · exact Or.inl ⟨(x, b), by simp, rfl⟩
                · rcases (ih (i :: used) (i : Int)).2 x hx hxe with
                    ⟨p, hp, hpe⟩ | hsk
                  · exact Or.inl ⟨p, by simp [hp], hpe⟩
                  · exact Or.inr hsk
            · rename_i hmatch
              constructor
              · rw [List.filter_cons_of_pos (by simp [hexc]), List.map_cons]
                exact (ih used last).1.cons₂ a.pass_name
              · intro x hx hxe
                rcases List.mem_cons.mp hx with rfl | hx
                · right; simp
                · rcases (ih used last).2 x hx hxe with ⟨p, hp, hpe⟩ | hsk
                  · exact Or.inl ⟨p, hp, hpe⟩
                  · right; simp [hsk]

/-- Invariant of the alignment loop for the pairs list: the A-record of
every emitted pair is one of the input records and is not excluded by
the configuration, so exclusion-set hits never reach the pairs list. -/
theorem ccmAux_pairs_not_excluded (cfg : ComparisonConfig)
    (mapping : List (String × String)) (npmDumps : List PassDump) :
    ∀ (legacy : List PassDump) (used : List Nat) (last : Int)
      (p : PassDump × PassDump),
      p ∈ (createChronologicalMappingAux cfg mapping npmDumps legacy
          used last).1 →
      p.1 ∈ legacy ∧ excludedByConfig cfg mapping p.1 = false := by
  intro legacy
  induction legacy with
  | nil =>
    intro used last p hp
    simp [createChronologicalMappingAux] at hp
  | cons a rest ih =>
    intro used last p hp
    rw [createChronologicalMappingAux] at hp
    split at hp
    · obtain ⟨h1, h2⟩ := ih used last p hp
      exact ⟨List.mem_cons_of_mem _ h1, h2⟩
    · rename_i hexa
      split at hp
      · obtain ⟨h1, h2⟩ := ih used last p (by simpa using hp)
        exact ⟨List.mem_cons_of_mem _ h1, h2⟩
      · rename_i hlook
        rename_i t
        split at hp
        · obtain ⟨h1, h2⟩ := ih used last p (by simpa using hp)
          exact ⟨List.mem_cons_of_mem _ h1, h2⟩
        · rename_i ht
          split at hp
          · obtain ⟨h1, h2⟩ := ih used last p hp
            exact ⟨List.mem_cons_of_mem _ h1, h2⟩
          · rename_i htb
            split at hp
            · rename_i hmatch
              rename_i i b
              have hp2 : p = (a, b) ∨ p ∈ (createChronologicalMappingAux cfg
                  mapping npmDumps rest (i :: used) (i : Int)).1 := by
                simpa using hp
              rcases hp2 with rfl | hp2
              · refine ⟨List.mem_cons_self _ _, ?_⟩
                simp [excludedByConfig, hexa, hlook, ht, htb]
              · obtain ⟨h1, h2⟩ := ih (i :: used) (i : Int) p hp2
                exact ⟨List.mem_cons_of_mem _ h1, h2⟩
            · obtain ⟨h1, h2⟩ := ih used last p (by simpa using hp)
              exact ⟨List.mem_cons_of_mem _ h1, h2⟩

/-- Claim C6 counterexample.  Legacy pass `p` is in the legacy exclusion
set: it is emitted in no pair, yet the returned unmatched list is empty
too — the record is absent from the result, contradicting the claim that
every non-emitted A-record is accumulated in the unmatched list. -/
theorem claim_C6_counterexample :
    (createChronologicalMapping { excluded_legacy_passes := ["p"] } []
      [⟨"p", 0, ""⟩] []).1 = [] ∧
    (createChronologicalMapping { excluded_legacy_passes := ["p"] } []
      [⟨"p", 0, ""⟩] []).2 = [] ∧
    ("p" : String) ∉ (createChronologicalMapping
      { excluded_legacy_passes := ["p"] } [] [⟨"p", 0, ""⟩] []).2 := by
  refine ⟨rfl, rfl, ?_⟩
  decide

/-- Claim C6, amended.  Only A-records skipped for a missing (or empty)
mapping entry or for lack of a valid chronological match are accumulated
in the returned unmatched list (a subsequence of the non-excluded
A-names, hence in original A order); records excluded by the exclusion
sets (own name, or mapped target) appear in neither the pairs — the
A-record of every emitted pair is non-excluded — nor the unmatched
list, being only logged.  Every non-excluded A-record is either emitted
in a pair or accumulated — never silently dropped. -/
theorem claim_C6_amended :
    ∀ (cfg : ComparisonConfig) (mapping : List (String × String))
      (legacyDumps npmDumps : List PassDump),
      ((createChronologicalMapping cfg mapping legacyDumps
          npmDumps).2).Sublist
        ((legacyDumps.filter (fun a => !(excludedByConfig cfg mapping a))).map
          (fun a => a.pass_name)) ∧
      (∀ p ∈ (createChronologicalMapping cfg mapping legacyDumps
          npmDumps).1, excludedByConfig cfg mapping p.1 = false) ∧
      ∀ a ∈ legacyDumps, excludedByConfig cfg mapping a = false →
        (∃ p ∈ (createChronologicalMapping cfg mapping legacyDumps
            npmDumps).1, p.1 = a) ∨
        a.pass_name ∈ (createChronologicalMapping cfg mapping legacyDumps
            npmDumps).2 :=
  fun cfg mapping legacyDumps npmDumps =>
    ⟨(ccmAux_unmatched cfg mapping npmDumps legacyDumps [] (-1)).1,
     fun p hp => (ccmAux_pairs_not_excluded cfg mapping npmDumps legacyDumps
        [] (-1) p hp).2,
     (ccmAux_unmatched cfg mapping npmDumps legacyDumps [] (-1)).2⟩

/-- Witness for C6: the A-record of the single emitted pair is
non-excluded, and a non-excluded record with a mapping entry is emitted
or accumulated (here: emitted). -/
theorem claim_C6_witness :
    excludedByConfig {} [("a", "b")] (⟨"a", 0, ""⟩ : PassDump) = false ∧
    ((∃ p ∈ (createChronologicalMapping {} [("a", "b")] [⟨"a", 0, ""⟩]
        [⟨"b", 5, ""⟩]).1, p.1 = (⟨"a", 0, ""⟩ : PassDump)) ∨
    ("a" : String) ∈ (createChronologicalMapping {} [("a", "b")]
        [⟨"a", 0, ""⟩] [⟨"b", 5, ""⟩]).2) :=
  ⟨(claim_C6_amended {} [("a", "b")] [⟨"a", 0, ""⟩] [⟨"b", 5, ""⟩]).2.1
      (⟨"a", 0, ""⟩, ⟨"b", 5, ""⟩) (by decide),
   (claim_C6_amended {} [("a", "b")] [⟨"a", 0, ""⟩] [⟨"b", 5, ""⟩]).2.2
      ⟨"a", 0, ""⟩ (by simp) (by decide)⟩

/-- Shifting `lastOr` across a cons. -/
theorem lastOr_cons {α : Type} (q : α) (l : List α) (prev : Option α) :
    lastOr (q :: l) prev = lastOr l (some q) := by
  cases l with
  | nil => simp [lastOr]
  | cons x xs =>
    simp only [lastOr, List.getLast?_cons_cons]
    cases hx : (x :: xs).getLast? with
    | none => simp at hx
    | some r => rfl

/-- `lastOr` with no incoming previous element is `getLast?`. -/
theorem lastOr_none {α : Type} (l : List α) :
    lastOr l none = l.getLast? := by
  cases hl : l.getLast? <;> simp [lastOr, hl]

/-- Stepping the divergence scan across a prefix of pairs whose two
sides normalize identically: the scan reaches the first differing pair
and reports it, whatever follows it. -/
theorem ffdAux_eq_prefix (cfg : ComparisonConfig) :
    ∀ (eqs : List (PassDump × PassDump)) (dp : PassDump × PassDump)
      (rest : List (PassDump × PassDump)) (i : Nat)
      (prev : Option (PassDump × PassDump)),
      (∀ p ∈ eqs, normalize cfg p.1.content = normalize cfg p.2.content) →
      normalize cfg dp.1.content ≠ normalize cfg dp.2.content →
      findFirstDivergenceAux cfg (eqs ++ dp :: rest) i prev =
        .divergence (i + eqs.length) dp.1 dp.2
          (if i + eqs.length = 0 then none else some (i + eqs.length - 1))
          ((lastOr eqs prev).map Prod.fst)
          ((lastOr eqs prev).map Prod.snd)
          (normalize cfg dp.1.content) (normalize cfg dp.2.content) := by
  intro eqs
  induction eqs with
  | nil =>
    intro dp rest i prev heq hne
    obtain ⟨lp, np⟩ := dp
    rw [List.nil_append, findFirstDivergenceAux, if_pos hne]
    simp [lastOr]
  | cons q eqs' ih =>
    intro dp rest i prev heq hne
    obtain ⟨lq, nq⟩ := q
    have hq := heq (lq, nq) (List.mem_cons_self _ _)
    rw [List.cons_append, findFirstDivergenceAux,
      if_neg (by simpa using hq)]
    rw [ih dp rest (i + 1) (some (lq, nq))
      (fun p hp => heq p (List.mem_cons_of_mem _ hp)) hne]
    rw [lastOr_cons, List.length_cons,
      show i + (eqs'.length + 1) = (i + 1) + eqs'.length from by omega]

/-- All pairs normalization-identical: the scan reports no divergence. -/
theorem ffdAux_all_eq (cfg : ComparisonConfig) :
    ∀ (pairs : List (PassDump × PassDump)) (i : Nat)
      (prev : Option (PassDump × PassDump)),
      (∀ p ∈ pairs, normalize cfg p.1.content = normalize cfg p.2.content) →
      findFirstDivergenceAux cfg pairs i prev = .noDivergence := by
  intro pairs
  induction pairs with
  | nil => intro i prev _; rfl
  | cons q rest ih =>
    intro i prev heq
    obtain ⟨lq, nq⟩ := q
    have hq := heq (lq, nq) (List.mem_cons_self _ _)
    rw [findFirstDivergenceAux, if_neg (by simpa using hq)]
    exact ih (i + 1) (some (lq, nq))
      (fun p hp => heq p (List.mem_cons_of_mem _ hp))

/-- Claim C1.  If the pairs before position `i = eqs.length` all
normalize identically and pair `i` differs, `find_first_divergence`
returns found, index `i`, that pair, and `pairs[i-1]` as last common
pair (`none` when `i = 0`) — and the result is the same for every
continuation `rest`, so no pair after `i` is ever normalized or
compared.  If every pair normalizes identically it returns not-found. -/
theorem claim_C1_first_divergence :
    (∀ (cfg : ComparisonConfig) (eqs : List (PassDump × PassDump))
       (dp : PassDump × PassDump) (rest : List (PassDump × PassDump)),
       (∀ p ∈ eqs, normalize cfg p.1.content = normalize cfg p.2.content) →
       normalize cfg dp.1.content ≠ normalize cfg dp.2.content →
       findFirstDivergence cfg (eqs ++ dp :: rest) =
         .divergence eqs.length dp.1 dp.2
           (if eqs.length = 0 then none else some (eqs.length - 1))
           ((eqs.getLast?).map Prod.fst) ((eqs.getLast?).map Prod.snd)
           (normalize cfg dp.1.content) (normalize cfg dp.2.content)) ∧
    (∀ (cfg : ComparisonConfig) (pairs : List (PassDump × PassDump)),
       (∀ p ∈ pairs, normalize cfg p.1.content = normalize cfg p.2.content) →
       findFirstDivergence cfg pairs = .noDivergence) := by
  constructor
  · intro cfg eqs dp rest heq hne
    have h := ffdAux_eq_prefix cfg eqs dp rest 0 none heq hne
    rw [findFirstDivergence, h, lastOr_none]
    simp
  · intro cfg pairs heq
    exact ffdAux_all_eq cfg pairs 0 none heq

/-- Witness for C1: prefix of one matching pair, divergence at index 1,
a later pair present but not inspected. -/
theorem claim_C1_witness :
    findFirstDivergence {}
      [(⟨"a", 0, "s"⟩, ⟨"b", 0, "s"⟩), (⟨"c", 1, "t"⟩, ⟨"d", 1, "u"⟩),
       (⟨"e", 2, "v"⟩, ⟨"f", 2, "w"⟩)] =
      .divergence 1 ⟨"c", 1, "t"⟩ ⟨"d", 1, "u"⟩ (some 0)
        (some ⟨"a", 0, "s"⟩) (some ⟨"b", 0, "s"⟩) "t" "u" := by
  have h := claim_C1_first_divergence.1 {}
    [(⟨"a", 0, "s"⟩, ⟨"b", 0, "s"⟩)] (⟨"c", 1, "t"⟩, ⟨"d", 1, "u"⟩)
    [(⟨"e", 2, "v"⟩, ⟨"f", 2, "w"⟩)] (by decide) (by decide)
  exact h.trans (by decide)

/-! ### Blank lines and the drop-blank-lines option (claim C8) -/

theorem takeWhile_eq_self_of_all {α : Type} (p : α → Bool) :
    ∀ l : List α, (∀ c ∈ l, p c = true) → l.takeWhile p = l := by
  intro l
  induction l with
  | nil => intro _; rfl
  | cons c rest ih =>
    intro h
    simp [List.takeWhile_cons, h c (List.mem_cons_self _ _),
      ih (fun x hx => h x (List.mem_cons_of_mem _ hx))]

theorem dropWhile_eq_nil_of_all {α : Type} (p : α → Bool) :
    ∀ l : List α, (∀ c ∈ l, p c = true) → l.dropWhile p = [] := by
  intro l
  induction l with
  | nil => intro _; rfl
  | cons c rest ih =>
    intro h
    rw [List.dropWhile_cons, h c (List.mem_cons_self _ _)]
    exact ih (fun x hx => h x (List.mem_cons_of_mem _ hx))

theorem all_of_dropWhile_eq_nil {α : Type} (p : α → Bool) :
    ∀ l : List α, l.dropWhile p = [] → ∀ c ∈ l, p c = true := by
  intro l
  induction l with
  | nil => intro _ c hc; exact absurd hc (List.not_mem_nil c)
  | cons a rest ih =>
    intro h c hc
    rw [List.dropWhile_cons] at h
    by_cases hp : p a = true
    · rw [if_pos hp] at h
      rcases List.mem_cons.mp hc with rfl | hc
      · exact hp
      · exact ih h c hc
    · rw [if_neg hp] at h
      exact List.noConfusion h

theorem all_of_mem_takeWhile {α : Type} (p : α → Bool) :
    ∀ l : List α, ∀ c ∈ l.takeWhile p, p c = true := by
  intro l
  induction l with
  | nil => intro c hc; exact absurd hc (List.not_mem_nil c)
  | cons a rest ih =>
    intro c hc
    rw [List.takeWhile_cons] at hc
    by_cases hp : p a = true
    · rw [if_pos hp] at hc
      rcases List.mem_cons.mp hc with rfl | hc
      · exact hp
      · exact ih c hc
    · rw [if_neg hp] at hc
      exact absurd hc (List.not_mem_nil c)

/-- A line whose `strip()` is empty is all-whitespace. -/
theorem all_space_of_strip_empty (l : List Char)
    (h : stripChars l = []) : ∀ c ∈ l, isPySpace c = true := by
  intro c hc
  unfold stripChars lstripChars rstripChars at h
  have hrev : c ∈ l.reverse := List.mem_reverse.mpr hc
  rw [← List.takeWhile_append_dropWhile (p := isPySpace) (l := l.reverse)]
    at hrev
  rcases List.mem_append.mp hrev with htk | hdr
  · exact all_of_mem_takeWhile isPySpace l.reverse c htk
  · have := all_of_dropWhile_eq_nil isPySpace
      (l.reverse.dropWhile isPySpace).reverse h c
      (List.mem_reverse.mpr hdr)
    exact this

/-- An all-whitespace line strips to nothing. -/
theorem strip_empty_of_all_space (l : List Char)
    (h : ∀ c ∈ l, isPySpace c = true) : stripChars l = [] := by
  unfold stripChars lstripChars rstripChars
  rw [dropWhile_eq_nil_of_all isPySpace l.reverse
    (fun c hc => h c (List.mem_reverse.mp hc))]
  rfl

/-- Enumeration of the whitespace characters. -/
theorem isPySpace_elim {c : Char} (h : isPySpace c = true) :
    c = ' ' ∨ c = '\t' ∨ c = '\n' ∨ c = '\r' ∨
    c = Char.ofNat 11 ∨ c = Char.ofNat 12 := by
  simpa [isPySpace, or_assoc] using h

theorem space_not_word {c : Char} (h : isPySpace c = true) :
    isWordChar c = false := by
  rcases isPySpace_elim h with rfl | rfl | rfl | rfl | rfl | rfl <;> decide

theorem space_not_alphaUnd {c : Char} (h : isPySpace c = true) :
    isAlphaUnd c = false := by
  rcases isPySpace_elim h with rfl | rfl | rfl | rfl | rfl | rfl <;> decide

theorem space_ne_semi {c : Char} (h : isPySpace c = true) : c ≠ ';' := by
  rcases isPySpace_elim h with rfl | rfl | rfl | rfl | rfl | rfl <;> decide

theorem space_ne_comma {c : Char} (h : isPySpace c = true) : c ≠ ',' := by
  rcases isPySpace_elim h with rfl | rfl | rfl | rfl | rfl | rfl <;> decide

theorem space_ne_percent {c : Char} (h : isPySpace c = true) : c ≠ '%' := by
  rcases isPySpace_elim h with rfl | rfl | rfl | rfl | rfl | rfl <;> decide

/-- Comment stripping does not touch a semicolon-free line. -/
theorem commentSub_of_all_space (l : List Char)
    (h : ∀ c ∈ l, isPySpace c = true) : commentSub l = l :=
  takeWhile_eq_self_of_all _ l
    (fun c hc => by simp [space_ne_semi (h c hc)])

theorem isDebugStart_eq_false {c : Char} {rest : List Char}
    (h : c ≠ ',') : isDebugStart (c :: rest) = false := by
  have hpre : debugLit.isPrefixOf (c :: rest) = false := by
    rw [show debugLit = ',' :: " !dbg !".data from rfl, List.isPrefixOf]
    simp [Ne.symm h]
  simp [isDebugStart, hpre]

/-- Debug-info stripping does not touch a comma-free line. -/
theorem debugSubAux_of_no_comma :
    ∀ (n : Nat) (l : List Char), (∀ c ∈ l, c ≠ ',') →
      debugSubAux n l = l := by
  intro n
  induction n with
  | zero => intro l _; rfl
  | succ n ih =>
    intro l h
    cases l with
    | nil => rfl
    | cons c rest =>
      rw [debugSubAux]
      rw [if_neg (by simp [isDebugStart_eq_false (h c (List.mem_cons_self _ _))])]
      rw [ih rest (fun x hx => h x (List.mem_cons_of_mem _ hx))]

theorem tempTokenSplit_of_head_ne {c0 : Char} {l : List Char}
    (h : c0 ≠ '%') : tempTokenSplit (c0 :: l) = none := by
  cases l with
  | nil => rfl
  | cons c1 rest =>
    rw [tempTokenSplit]
    rw [if_neg (by simp [h])]

/-- Temp-var renaming does not touch a percent-free line and leaves the
accumulator unchanged. -/
theorem tempVarSubAux_of_no_percent :
    ∀ (n : Nat) (l : List Char) (cnt : Nat)
      (m : List (List Char × List Char)), (∀ c ∈ l, c ≠ '%') →
      tempVarSubAux n l cnt m = (l, cnt, m) := by
  intro n
  induction n with
  | zero => intro l cnt m _; rfl
  | succ n ih =>
    intro l cnt m h
    cases l with
    | nil => rfl
    | cons c rest =>
      rw [tempVarSubAux,
        tempTokenSplit_of_head_ne (h c (List.mem_cons_self _ _)),
        ih rest cnt m (fun x hx => h x (List.mem_cons_of_mem _ hx))]

/-- A word-boundary substitution does not touch an all-whitespace line. -/
theorem wbAux_of_all_space (orig repl : List Char) :
    ∀ (n : Nat) (prev : Option Char) (l : List Char),
      (∀ c ∈ l, isPySpace c = true) →
      (∀ pc, prev = some pc → isPySpace pc = true) →
      wbAux orig repl n prev l = l := by
  intro n
  induction n with
  | zero => intro prev l _ _; rfl
  | succ n ih =>
    intro prev l h hprev
    cases l with
    | nil => rfl
    | cons c rest =>
      have hwb : wordBoundary prev (some c) = false := by
        have hc : isWordB (some c) = false := by
          simpa [isWordB] using space_not_word (h c (List.mem_cons_self _ _))
        have hp : isWordB prev = false := by
          cases prev with
          | none => rfl
          | some pc =>
            simpa [isWordB] using space_not_word (hprev pc rfl)
        simp [wordBoundary, hc, hp]
      rw [wbAux, if_neg (by simp [hwb])]
      rw [ih (some c) rest (fun x hx => h x (List.mem_cons_of_mem _ hx))
        (fun pc hpc => by
          cases hpc
          exact h c (List.mem_cons_self _ _))]

theorem wbSub_of_all_space (orig repl : List Char) (l : List Char)
    (h : ∀ c ∈ l, isPySpace c = true) : wbSub orig repl l = l := by
  unfold wbSub
  split
  · rfl
  · exact wbAux_of_all_space orig repl l.length none l h (by intro pc hpc; exact Option.noConfusion hpc)

/-- Label renaming does not touch an all-whitespace line and leaves the
accumulator unchanged. -/
theorem normalizeLabels_of_all_space (l : List Char) (cnt : Nat)
    (m : List (List Char × List Char))
    (h : ∀ c ∈ l, isPySpace c = true) :
    normalizeLabels l cnt m = (l, cnt, m) := by
  have hdef : labelDefSplit l = none := by
    cases l with
    | nil => rfl
    | cons c rest =>
      rw [labelDefSplit]
      rw [if_neg (by simp [space_not_alphaUnd (h c (List.mem_cons_self _ _))])]
  unfold normalizeLabels
  rw [hdef]
  have hfold : ∀ (mm : List (List Char × List Char)) (acc : List Char),
      (∀ c ∈ acc, isPySpace c = true) →
      mm.foldl (fun acc p => wbSub p.1 (rstripColon p.2) acc) acc = acc := by
    intro mm
    induction mm with
    | nil => intro acc _; rfl
    | cons p mm' ih =>
      intro acc hacc
      rw [List.foldl_cons, wbSub_of_all_space p.1 (rstripColon p.2) acc hacc]
      exact ih acc hacc
  simpa using hfold m l h

/-- Whitespace collapsing keeps an all-whitespace line all-whitespace. -/
theorem collapseWsAux_of_all_space :
    ∀ (l : List Char), (∀ c ∈ l, isPySpace c = true) →
      ∀ (b : Bool), ∀ x ∈ collapseWsAux b l, isPySpace x = true := by
  intro l
  induction l with
  | nil => intro _ b x hx; exact absurd hx (List.not_mem_nil x)
  | cons c rest ih =>
    intro h b x hx
    rw [collapseWsAux] at hx
    rw [if_pos (h c (List.mem_cons_self _ _))] at hx
    have hrest := fun y hy => h y (List.mem_cons_of_mem _ hy)
    cases b with
    | true => exact ih hrest true x hx
    | false =>
      rcases List.mem_cons.mp hx with rfl | hx
      · decide
      · exact ih hrest true x hx

/-- The transformation chain does not touch an all-whitespace line and
leaves the accumulator unchanged. -/
theorem transformLine_of_all_space (cfg : ComparisonConfig)
    (l : List Char) (st : NormState)
    (hall : ∀ c ∈ l, isPySpace c = true) :
    transformLine cfg l st =
      ((if cfg.ignore_whitespace then normalizeWhitespace l else l), st) := by
  unfold transformLine
  have h1 : (if cfg.ignore_comments then commentSub l else l) = l := by
    split
    · exact commentSub_of_all_space l hall
    · rfl
  have h2 : (if cfg.ignore_debug_info then debugSub l else l) = l := by
    split
    · exact debugSubAux_of_no_comma l.length l
        (fun c hc => space_ne_comma (hall c hc))
    · rfl
  have h3 : (if cfg.ignore_labels then normalizeLabels l st.lc st.lm
      else (l, st.lc, st.lm)) = (l, st.lc, st.lm) := by
    split
    · exact normalizeLabels_of_all_space l st.lc st.lm hall
    · rfl
  have h4 : (if cfg.ignore_temp_vars then normalizeTempVars l st.tc st.tm
      else (l, st.tc, st.tm)) = (l, st.tc, st.tm) := by
    split
    · exact tempVarSubAux_of_no_percent l.length l st.tc st.tm
        (fun c hc => space_ne_percent (hall c hc))
    · rfl
  simp only [h1, h2, h3, h4]

/-- The body of the `for` loop of `normalize` behaves identically
whatever the value of the drop-blank-lines option. -/
theorem processLine_empty_lines_flag (cfg : ComparisonConfig)
    (l : List Char) (st : NormState) :
    processLine { cfg with ignore_empty_lines := false } l st =
      processLine { cfg with ignore_empty_lines := true } l st := by
  by_cases hb : (stripChars l).isEmpty = true
  · have hnil : stripChars l = [] := by
      cases hs : stripChars l with
      | nil => rfl
      | cons a b => rw [hs] at hb; simp [List.isEmpty] at hb
    have hall : ∀ c ∈ l, isPySpace c = true := all_space_of_strip_empty l hnil
    have hrhs : processLine { cfg with ignore_empty_lines := true } l st
        = (none, st) := by
      unfold processLine
      rw [if_pos (by simp [hb])]
    rw [hrhs]
    unfold processLine
    rw [if_neg (by simp)]
    rw [if_neg (by simp [hnil])]
    have ht := transformLine_of_all_space
      { cfg with ignore_empty_lines := false } l st hall
    have h5 : stripChars (if ({ cfg with ignore_empty_lines := false } :
        ComparisonConfig).ignore_whitespace then normalizeWhitespace l
        else l) = [] := by
      split
      · unfold normalizeWhitespace
        have := collapseWsAux_of_all_space l hall false
        rw [strip_empty_of_all_space _ this]
        rfl
      · exact hnil
    rw [ht]
    simp [h5]
  · have hx : (stripChars l).isEmpty = false := by simpa using hb
    unfold processLine
    rw [hx]
    simp only [Bool.and_false]
    rfl

/-- The line loop is insensitive to the drop-blank-lines option. -/
theorem normalizeLinesAux_empty_lines_flag (cfg : ComparisonConfig) :
    ∀ (lines : List (List Char)) (st : NormState),
      normalizeLinesAux { cfg with ignore_empty_lines := false } lines st =
        normalizeLinesAux { cfg with ignore_empty_lines := true } lines st := by
  intro lines
  induction lines with
  | nil => intro st; rfl
  | cons l rest ih =>
    intro st
    rw [normalizeLinesAux, normalizeLinesAux,
      processLine_empty_lines_flag cfg l st]
    cases hp : processLine { cfg with ignore_empty_lines := true } l st with
    | mk out st' =>
      cases out with
      | none => exact ih st'
      | some o => simp [ih st']

/-- An emitted line is never blank. -/
theorem processLine_some_not_blank (cfg : ComparisonConfig)
    (l : List Char) (st : NormState) (out : List Char) (st' : NormState)
    (h : processLine cfg l st = (some out, st')) :
    (stripChars out).isEmpty = false := by
  unfold processLine at h
  split at h
  · exact absurd (congrArg Prod.fst h) (by simp)
  · split at h
    · exact absurd (congrArg Prod.fst h) (by simp)
    · split at h
      · exact absurd (congrArg Prod.fst h) (by simp)
      · rename_i hguard
        have heq := Option.some.inj (congrArg Prod.fst h)
        rw [heq] at hguard
        simpa using hguard

/-- Claim C8, amended.  The drop-blank-lines option has no effect on the
output: blank lines are dropped by the final empty-after-transformation
filter even when the option is disabled, and no emitted line is blank. -/
theorem claim_C8_amended :
    (∀ (cfg : ComparisonConfig) (text : String),
      normalize { cfg with ignore_empty_lines := false } text =
        normalize { cfg with ignore_empty_lines := true } text) ∧
    (∀ (cfg : ComparisonConfig) (lines : List (List Char)) (st : NormState),
      ∀ out ∈ normalizeLinesAux cfg lines st,
        (stripChars out).isEmpty = false) := by
  constructor
  · intro cfg text
    unfold normalize
    rw [normalizeLinesAux_empty_lines_flag cfg]
  · intro cfg lines
    induction lines with
    | nil =>
      intro st out hout
      exact absurd hout (List.not_mem_nil out)
    | cons l rest ih =>
      intro st out hout
      rw [normalizeLinesAux] at hout
      cases hp : processLine cfg l st with
      | mk o st' =>
        rw [hp] at hout
        cases o with
        | none => exact ih st' out hout
        | some o0 =>
          rcases List.mem_cons.mp hout with rfl | hout
          · exact processLine_some_not_blank cfg l st out st' hp
          · exact ih st' out hout

/-- Witness for C8: flag irrelevance and non-blank output at a concrete
input with a blank line. -/
theorem claim_C8_witness :
    normalize { cfgNothing with ignore_empty_lines := false } "a\n\nb" =
      normalize { cfgNothing with ignore_empty_lines := true } "a\n\nb" ∧
    (stripChars "a".data).isEmpty = false :=
  ⟨claim_C8_amended.1 cfgNothing "a\n\nb",
   claim_C8_amended.2 cfgNothing (splitLines "a\n\nb".data) .init "a".data
     (by decide)⟩

/-! ### Digit-initial temporary tokens (claim C10) -/

theorem digit_not_alphaUnd {c : Char} (h : c.isDigit = true) :
    isAlphaUnd c = false := by
  simp only [Char.isDigit, Bool.and_eq_true, decide_eq_true_eq, ge_iff_le]
    at h
  obtain ⟨h1, h2⟩ := h
  have h2n : c.val.toNat ≤ 57 := h2
  simp only [isAlphaUnd, Char.isAlpha, Char.isUpper, Char.isLower,
    Bool.or_eq_false_iff, Bool.and_eq_false_iff, decide_eq_false_iff_not,
    ge_iff_le, beq_eq_false_iff_ne, ne_eq]
  refine ⟨⟨?_, ?_⟩, ?_⟩
  · left
    intro hle
    have h65 : (65 : Nat) ≤ c.val.toNat := hle
    omega
  · left
    intro hle
    have h97 : (97 : Nat) ≤ c.val.toNat := hle
    omega
  · intro he
    subst he
    exact absurd h2n (by decide)

theorem digit_ne_percent {c : Char} (h : c.isDigit = true) : c ≠ '%' := by
  simp only [Char.isDigit, Bool.and_eq_true, decide_eq_true_eq, ge_iff_le]
    at h
  intro he
  subst he
  exact absurd h.1 (by decide)

theorem takeWhile_append_not_head {α : Type} (p : α → Bool) {c : α}
    (hc : p c = false) :
    ∀ (x zt : List α), (x ++ c :: zt).takeWhile p = x.takeWhile p := by
  intro x zt
  induction x with
  | nil => simp [List.takeWhile_cons, hc]
  | cons a x' ih =>
    cases hpa : p a with
    | true => simp [List.takeWhile_cons, hpa, ih]
    | false => simp [List.takeWhile_cons, hpa]

theorem dropWhile_append_not_head {α : Type} (p : α → Bool) {c : α}
    (hc : p c = false) :
    ∀ (x zt : List α),
      (x ++ c :: zt).dropWhile p = x.dropWhile p ++ c :: zt := by
  intro x zt
  induction x with
  | nil => simp [List.dropWhile_cons, hc]
  | cons a x' ih =>
    cases hpa : p a with
    | true => simp [List.dropWhile_cons, hpa, ih]
    | false => simp [List.dropWhile_cons, hpa]

/-- The matched token and remainder reassemble the input, and a token
has at least two characters. -/
theorem tempTokenSplit_parts :
    ∀ (l tok r : List Char), tempTokenSplit l = some (tok, r) →
      tok ++ r = l ∧ 2 ≤ tok.length := by
  intro l tok r h
  match l with
  | [] => exact Option.noConfusion h
  | [c0] => exact Option.noConfusion h
  | c0 :: c1 :: rest =>
    rw [tempTokenSplit] at h
    split at h
    · rename_i hcond
      obtain ⟨rfl, hc1⟩ := hcond
      have hword : isWordChar c1 = true := by
        rcases (by simpa [isAlphaUnd] using hc1 :
            c1.isAlpha = true ∨ c1 = '_') with ha | rfl
        · simp [isWordChar, ha]
        · decide
      have htk : (c1 :: rest).takeWhile isWordChar
          = c1 :: rest.takeWhile isWordChar := by
        simp [List.takeWhile_cons, hword]
      have hcat : (c1 :: rest).takeWhile isWordChar ++
          (c1 :: rest).dropWhile isWordChar = c1 :: rest :=
        List.takeWhile_append_dropWhile isWordChar (c1 :: rest)
      split at h
      · rename_i c2 r2 hdw
        split at h
        · rename_i hdot
          subst hdot
          have hp := Option.some.inj h
          have htok : tok = '%' :: (c1 :: rest).takeWhile isWordChar ++
              '.' :: r2.takeWhile Char.isDigit := (congrArg Prod.fst hp).symm
          have hr : r = r2.dropWhile Char.isDigit :=
            (congrArg Prod.snd hp).symm
          constructor
          · rw [htok, hr]
            have hmerge : r2.takeWhile Char.isDigit ++
                r2.dropWhile Char.isDigit = r2 :=
              List.takeWhile_append_dropWhile Char.isDigit r2
            calc ('%' :: (c1 :: rest).takeWhile isWordChar ++
                  '.' :: r2.takeWhile Char.isDigit) ++ r2.dropWhile Char.isDigit
                = '%' :: ((c1 :: rest).takeWhile isWordChar ++ '.' :: r2) := by
                  simp [hmerge]
              _ = '%' :: ((c1 :: rest).takeWhile isWordChar ++
                  (c1 :: rest).dropWhile isWordChar) := by rw [hdw]
              _ = '%' :: c1 :: rest := by rw [hcat]
          · rw [htok, htk]
            simp
        · have hp := Option.some.inj h
          have htok : tok = '%' :: (c1 :: rest).takeWhile isWordChar :=
            (congrArg Prod.fst hp).symm
          have hr : r = c2 :: r2 := (congrArg Prod.snd hp).symm
          constructor
          · rw [htok, hr, ← hdw]
            simp only [List.cons_append, hcat]
          · rw [htok, htk]
            simp
      · rename_i hdw
        have hp := Option.some.inj h
        have htok : tok = '%' :: (c1 :: rest).takeWhile isWordChar :=
          (congrArg Prod.fst hp).symm
        have hr : r = [] := (congrArg Prod.snd hp).symm
        constructor
        · rw [htok, hr, List.append_nil]
          have := hcat
          rw [hdw, List.append_nil] at this
          rw [this]
        · rw [htok, htk]
          simp
    · exact Option.noConfusion h

/-- The temp-var pattern never matches immediately before `'%'` followed
by a digit, so token matching commutes with appending such a tail. -/
theorem tempTokenSplit_append (d : Char) (v : List Char)
    (hd : Char.isDigit d = true) :
    ∀ u : List Char,
      tempTokenSplit (u ++ '%' :: d :: v) =
        (tempTokenSplit u).map (fun p => (p.1, p.2 ++ '%' :: d :: v)) := by
  intro u
  match u with
  | [] =>
    rw [List.nil_append, tempTokenSplit]
    rw [if_neg (by simp [digit_not_alphaUnd hd])]
    rfl
  | [c0] =>
    have : tempTokenSplit [c0] = none := rfl
    rw [this]
    rw [show [c0] ++ '%' :: d :: v = c0 :: '%' :: d :: v from rfl,
      tempTokenSplit]
    rw [if_neg (by simp [show isAlphaUnd '%' = false from by decide])]
    rfl
  | c0 :: c1 :: u' =>
    rw [show (c0 :: c1 :: u') ++ '%' :: d :: v
        = c0 :: c1 :: (u' ++ '%' :: d :: v) from rfl]
    rw [tempTokenSplit, tempTokenSplit]
    by_cases hcond : c0 = '%' ∧ isAlphaUnd c1 = true
    · rw [if_pos (by simpa using hcond), if_pos (by simpa using hcond)]
      have hwp : isWordChar '%' = false := by decide
      have htk : (c1 :: (u' ++ '%' :: d :: v)).takeWhile isWordChar
          = (c1 :: u').takeWhile isWordChar := by
        rw [show c1 :: (u' ++ '%' :: d :: v)
            = (c1 :: u') ++ '%' :: d :: v from rfl]
        exact takeWhile_append_not_head isWordChar hwp (c1 :: u') (d :: v)
      have hdw : (c1 :: (u' ++ '%' :: d :: v)).dropWhile isWordChar
          = (c1 :: u').dropWhile isWordChar ++ '%' :: d :: v := by
        rw [show c1 :: (u' ++ '%' :: d :: v)
            = (c1 :: u') ++ '%' :: d :: v from rfl]
        exact dropWhile_append_not_head isWordChar hwp (c1 :: u') (d :: v)
      rw [htk, hdw]
      cases hB : (c1 :: u').dropWhile isWordChar with
      | nil =>
        simp [show ¬(('%' : Char) = '.') from by decide]
      | cons c2 r2 =>
        by_cases hc2 : c2 = '.'
        · subst hc2
          have hdp : Char.isDigit '%' = false := by decide
          simp [List.cons_append,
            takeWhile_append_not_head Char.isDigit hdp r2 (d :: v),
            dropWhile_append_not_head Char.isDigit hdp r2 (d :: v)]
        · simp [List.cons_append, hc2]
    · rw [if_neg (by simpa using hcond), if_neg (by simpa using hcond)]
      rfl

/-- Fuel beyond the input length never matters for the temp-var scan. -/
theorem tempVarSubAux_fuel :
    ∀ (n : Nat) (l : List Char) (cnt : Nat)
      (m : List (List Char × List Char)), l.length ≤ n →
      tempVarSubAux n l cnt m = tempVarSubAux l.length l cnt m := by
  intro n
  induction n using Nat.strong_induction_on with
  | _ n ih =>
    intro l cnt m hl
    cases l with
    | nil => cases n <;> rfl
    | cons ch rest =>
      cases n with
      | zero => simp at hl
      | succ n =>
        have hrest : rest.length ≤ n := by
          simp only [List.length_cons] at hl
          omega
        rw [tempVarSubAux,
          show (ch :: rest).length = rest.length + 1 from by simp,
          tempVarSubAux]
        cases hts : tempTokenSplit (ch :: rest) with
        | none =>
          simp only []
          rw [ih n (Nat.lt_succ_self n) rest cnt m hrest,
            ih rest.length (by omega) rest cnt m (le_refl _)]
        | some pr =>
          obtain ⟨tok, r⟩ := pr
          obtain ⟨hcat, htl⟩ := tempTokenSplit_parts (ch :: rest) tok r hts
          have hrlen : r.length + 2 ≤ rest.length + 1 := by
            have := congrArg List.length hcat
            simp at this
            omega
          simp only []
          cases lookupAssoc m tok with
          | some repl =>
            rw [ih n (Nat.lt_succ_self n) r cnt m (by omega),
              ih rest.length (by omega) r cnt m (by omega)]
          | none =>
            rw [ih n (Nat.lt_succ_self n) r (cnt + 1)
                (m ++ [(tok, tempName cnt)]) (by omega),
              ih rest.length (by omega) r (cnt + 1)
                (m ++ [(tok, tempName cnt)]) (by omega)]

/-- The `_normalize_temp_vars` substitution around a digit-initial
token: the token `%d...` is never matched, the text before and after it
is rewritten independently, and the accumulator threads through. -/
theorem normalizeTempVars_append (d : Char) (hd : Char.isDigit d = true) :
    ∀ (n : Nat) (u : List Char), u.length ≤ n →
      ∀ (v : List Char) (cnt : Nat) (m : List (List Char × List Char)),
      normalizeTempVars (u ++ '%' :: d :: v) cnt m =
        ((normalizeTempVars u cnt m).1 ++ '%' :: d ::
            (normalizeTempVars v (normalizeTempVars u cnt m).2.1
              (normalizeTempVars u cnt m).2.2).1,
         (normalizeTempVars v (normalizeTempVars u cnt m).2.1
            (normalizeTempVars u cnt m).2.2).2) := by
  intro n
  induction n using Nat.strong_induction_on with
  | _ n ih =>
    intro u hu v cnt m
    cases u with
    | nil =>
      have h1 : tempTokenSplit ('%' :: d :: v) = none := by
        rw [tempTokenSplit]
        rw [if_neg (by simp [digit_not_alphaUnd hd])]
      have h2 : tempTokenSplit (d :: v) = none := by
        cases v with
        | nil => rfl
        | cons a w =>
          rw [tempTokenSplit]
          rw [if_neg (by simp [digit_ne_percent hd])]
      have hstep : normalizeTempVars ('%' :: d :: v) cnt m
          = ('%' :: d :: (normalizeTempVars v cnt m).1,
             (normalizeTempVars v cnt m).2) := by
        unfold normalizeTempVars
        rw [show ('%' :: d :: v).length = v.length + 1 + 1 from by simp]
        rw [tempVarSubAux]
        simp only [h1]
        rw [tempVarSubAux]
        simp only [h2]
      rw [show ([] : List Char) ++ '%' :: d :: v = '%' :: d :: v from rfl,
        hstep]
      simp [normalizeTempVars, tempVarSubAux]
    | cons ch u' =>
      have hu' : u'.length + 1 ≤ n := by simpa using hu
      have hts := tempTokenSplit_append d v hd (ch :: u')
      cases hu0 : tempTokenSplit (ch :: u') with
      | none =>
        have hnone : tempTokenSplit (ch :: (u' ++ '%' :: d :: v)) = none := by
          rw [show ch :: (u' ++ '%' :: d :: v)
              = (ch :: u') ++ '%' :: d :: v from rfl, hts, hu0]
          rfl
        have hstep : normalizeTempVars ((ch :: u') ++ '%' :: d :: v) cnt m
            = (ch :: (normalizeTempVars (u' ++ '%' :: d :: v) cnt m).1,
               (normalizeTempVars (u' ++ '%' :: d :: v) cnt m).2) := by
          rw [show (ch :: u') ++ '%' :: d :: v
              = ch :: (u' ++ '%' :: d :: v) from rfl]
          unfold normalizeTempVars
          rw [show (ch :: (u' ++ '%' :: d :: v)).length
              = (u' ++ '%' :: d :: v).length + 1 from by simp,
            tempVarSubAux]
          simp only [hnone]
        have hih := ih u'.length (by omega) u' (le_refl _) v cnt m
        have hru : normalizeTempVars (ch :: u') cnt m
            = (ch :: (normalizeTempVars u' cnt m).1,
               (normalizeTempVars u' cnt m).2) := by
          unfold normalizeTempVars
          rw [show (ch :: u').length = u'.length + 1 from by simp,
            tempVarSubAux]
          simp only [hu0]
        rw [hstep, hih, hru]
        simp
      | some pr =>
        obtain ⟨tok, r⟩ := pr
        obtain ⟨hcat, htl⟩ := tempTokenSplit_parts (ch :: u') tok r hu0
        have hrlen : r.length + 2 ≤ u'.length + 1 := by
          have := congrArg List.length hcat
          simp at this
          omega
        have hsome : tempTokenSplit (ch :: (u' ++ '%' :: d :: v))
            = some (tok, r ++ '%' :: d :: v) := by
          rw [show ch :: (u' ++ '%' :: d :: v)
              = (ch :: u') ++ '%' :: d :: v from rfl, hts, hu0]
          rfl
        cases hlk : lookupAssoc m tok with
        | some repl =>
          have hstep : normalizeTempVars ((ch :: u') ++ '%' :: d :: v) cnt m
              = (repl ++ (normalizeTempVars (r ++ '%' :: d :: v) cnt m).1,
                 (normalizeTempVars (r ++ '%' :: d :: v) cnt m).2) := by
            rw [show (ch :: u') ++ '%' :: d :: v
                = ch :: (u' ++ '%' :: d :: v) from rfl]
            unfold normalizeTempVars
            rw [show (ch :: (u' ++ '%' :: d :: v)).length
                = (u' ++ '%' :: d :: v).length + 1 from by simp,
              tempVarSubAux]
            simp only [hsome, hlk]
            rw [tempVarSubAux_fuel (u' ++ '%' :: d :: v).length
              (r ++ '%' :: d :: v) cnt m (by simp; omega)]
          have hih := ih r.length (by omega) r (le_refl _) v cnt m
          have hru : normalizeTempVars (ch :: u') cnt m
              = (repl ++ (normalizeTempVars r cnt m).1,
                 (normalizeTempVars r cnt m).2) := by
            unfold normalizeTempVars
            rw [show (ch :: u').length = u'.length + 1 from by simp,
              tempVarSubAux]
            simp only [hu0, hlk]
            rw [tempVarSubAux_fuel u'.length r cnt m (by omega)]
          rw [hstep, hih, hru]
          simp
        | none =>
          have hstep : normalizeTempVars ((ch :: u') ++ '%' :: d :: v) cnt m
              = (tempName cnt ++ (normalizeTempVars (r ++ '%' :: d :: v)
                    (cnt + 1) (m ++ [(tok, tempName cnt)])).1,
                 (normalizeTempVars (r ++ '%' :: d :: v) (cnt + 1)
                    (m ++ [(tok, tempName cnt)])).2) := by
            rw [show (ch :: u') ++ '%' :: d :: v
                = ch :: (u' ++ '%' :: d :: v) from rfl]
            unfold normalizeTempVars
            rw [show (ch :: (u' ++ '%' :: d :: v)).length
                = (u' ++ '%' :: d :: v).length + 1 from by simp,
              tempVarSubAux]
            simp only [hsome, hlk]
            rw [tempVarSubAux_fuel (u' ++ '%' :: d :: v).length
              (r ++ '%' :: d :: v) (cnt + 1) (m ++ [(tok, tempName cnt)])
              (by simp; omega)]
          have hih := ih r.length (by omega) r (le_refl _) v (cnt + 1)
            (m ++ [(tok, tempName cnt)])
          have hru : normalizeTempVars (ch :: u') cnt m
              = (tempName cnt ++ (normalizeTempVars r (cnt + 1)
                    (m ++ [(tok, tempName cnt)])).1,
                 (normalizeTempVars r (cnt + 1)
                    (m ++ [(tok, tempName cnt)])).2) := by
            unfold normalizeTempVars
            rw [show (ch :: u').length = u'.length + 1 from by simp,
              tempVarSubAux]
            simp only [hu0, hlk]
            rw [tempVarSubAux_fuel u'.length r (cnt + 1)
              (m ++ [(tok, tempName cnt)]) (by omega)]
          rw [hstep, hih, hru]
          simp

/-- Claim C10.  The temp-var pattern `%[a-zA-Z_][a-zA-Z0-9_]*\.?[0-9]*`
never matches a digit-initial token such as `%1`: (i) the matcher fails
at `%` followed by a digit; (ii) every matched token starts with `%`
followed by a letter or underscore; (iii) `_normalize_temp_vars` leaves
such a token in place, renaming only the surrounding text as it would
anywhere, with the counter and map threaded through. -/
theorem claim_C10_digit_temp_tokens :
    (∀ (d : Char) (v : List Char), Char.isDigit d = true →
      tempTokenSplit ('%' :: d :: v) = none) ∧
    (∀ (l tok r : List Char), tempTokenSplit l = some (tok, r) →
      ∃ c cs, tok = '%' :: c :: cs ∧ isAlphaUnd c = true) ∧
    (∀ (d : Char) (u v : List Char) (cnt : Nat)
       (m : List (List Char × List Char)), Char.isDigit d = true →
      normalizeTempVars (u ++ '%' :: d :: v) cnt m =
        ((normalizeTempVars u cnt m).1 ++ '%' :: d ::
            (normalizeTempVars v (normalizeTempVars u cnt m).2.1
              (normalizeTempVars u cnt m).2.2).1,
         (normalizeTempVars v (normalizeTempVars u cnt m).2.1
            (normalizeTempVars u cnt m).2.2).2)) := by
  refine ⟨?_, ?_, ?_⟩
  · intro d v hd
    rw [tempTokenSplit]
    rw [if_neg (by simp [digit_not_alphaUnd hd])]
  · intro l tok r h
    match l with
    | [] => exact Option.noConfusion h
    | [c0] => exact Option.noConfusion h
    | c0 :: c1 :: rest =>
      rw [tempTokenSplit] at h
      split at h
      · rename_i hcond
        obtain ⟨rfl, hc1⟩ := hcond
        have hword : isWordChar c1 = true := by
          rcases (by simpa [isAlphaUnd] using hc1 :
              c1.isAlpha = true ∨ c1 = '_') with ha | rfl
          · simp [isWordChar, ha]
          · decide
        have htk : (c1 :: rest).takeWhile isWordChar
            = c1 :: rest.takeWhile isWordChar := by
          simp [List.takeWhile_cons, hword]
        split at h
        · rename_i c2 r2 hdw
          split at h
          · have htok : tok = '%' :: (c1 :: rest).takeWhile isWordChar ++
                '.' :: r2.takeWhile Char.isDigit :=
              (congrArg Prod.fst (Option.some.inj h)).symm
            refine ⟨c1, rest.takeWhile isWordChar ++
              '.' :: r2.takeWhile Char.isDigit, ?_, hc1⟩
            rw [htok, htk]
            simp
          · have htok : tok = '%' :: (c1 :: rest).takeWhile isWordChar :=
              (congrArg Prod.fst (Option.some.inj h)).symm
            exact ⟨c1, rest.takeWhile isWordChar, by rw [htok, htk], hc1⟩
        · have htok : tok = '%' :: (c1 :: rest).takeWhile isWordChar :=
            (congrArg Prod.fst (Option.some.inj h)).symm
          exact ⟨c1, rest.takeWhile isWordChar, by rw [htok, htk], hc1⟩
      · exact Option.noConfusion h
  · intro d u v cnt m hd
    exact normalizeTempVars_append d hd u.length u (le_refl _) v cnt m

/-- Witness for C10: the matcher at `%1`, a concrete matched token, and
the substitution around `%1` at a concrete line. -/
theorem claim_C10_witness :
    tempTokenSplit ('%' :: '1' :: []) = none ∧
    (∃ c cs, ('%' :: 'a' :: []) = '%' :: c :: cs ∧ isAlphaUnd c = true) ∧
    normalizeTempVars (('%' :: 'a' :: ' ' :: []) ++ '%' :: '1' :: []) 0 [] =
      ((normalizeTempVars ('%' :: 'a' :: ' ' :: []) 0 []).1 ++ '%' :: '1' ::
          (normalizeTempVars []
            (normalizeTempVars ('%' :: 'a' :: ' ' :: []) 0 []).2.1
            (normalizeTempVars ('%' :: 'a' :: ' ' :: []) 0 []).2.2).1,
       (normalizeTempVars []
          (normalizeTempVars ('%' :: 'a' :: ' ' :: []) 0 []).2.1
          (normalizeTempVars ('%' :: 'a' :: ' ' :: []) 0 []).2.2).2) :=
  ⟨claim_C10_digit_temp_tokens.1 '1' [] (by decide),
   claim_C10_digit_temp_tokens.2.1 ('%' :: 'a' :: '%' :: '1' :: [])
     ('%' :: 'a' :: []) ('%' :: '1' :: []) (by decide),
   claim_C10_digit_temp_tokens.2.2 '1' ('%' :: 'a' :: ' ' :: []) [] 0 []
     (by decide)⟩

/-! ### Header tolerance of leading whitespace and markers (claim C7) -/

theorem dropWhile_append_of_all {α : Type} (p : α → Bool) :
    ∀ (a b : List α), (∀ c ∈ a, p c = true) →
      (a ++ b).dropWhile p = b.dropWhile p := by
  intro a b
  induction a with
  | nil => intro _; rfl
  | cons x a' ih =>
    intro h
    rw [List.cons_append, List.dropWhile_cons,
      if_pos (h x (List.mem_cons_self _ _))]
    exact ih (fun c hc => h c (List.mem_cons_of_mem _ hc))

/-- Right-stripping stops at a trailing non-whitespace character. -/
theorem rstrip_append_of_not_space {c : Char} (hc : isPySpace c = false) :
    ∀ (a r : List Char),
      rstripChars (a ++ c :: r) = a ++ c :: rstripChars r := by
  intro a r
  unfold rstripChars
  rw [List.reverse_append, List.reverse_cons, List.append_assoc,
    List.singleton_append,
    dropWhile_append_not_head isPySpace hc r.reverse a.reverse,
    List.reverse_append, List.reverse_cons, List.reverse_reverse]
  simp

/-- The legacy banner matcher ignores a prefix of whitespace, an
optional `#` marker, and more whitespace, before a line whose banner
starts with `*`. -/
theorem legacyMatch_prefix (ws1 ws2 r' : List Char) (hash : Bool)
    (hw1 : ∀ c ∈ ws1, isPySpace c = true)
    (hw2 : ∀ c ∈ ws2, isPySpace c = true) :
    legacyMatch (ws1 ++ (if hash then ['#'] else []) ++ ws2 ++ ('*' :: r'))
      = legacyMatch ('*' :: r') := by
  have hsp : isPySpace '*' = false := by decide
  have hstar : ('*' :: r').dropWhile isPySpace = '*' :: r' := by
    rw [List.dropWhile_cons, if_neg (by simp [hsp])]
  have hskipStar : legacyHashSkip ('*' :: r') = '*' :: r' := by
    rw [legacyHashSkip, if_neg (by decide)]
  have hcore : legacyHashSkip ((ws1 ++ (if hash then ['#'] else []) ++ ws2 ++
      ('*' :: r')).dropWhile isPySpace) = '*' :: r' := by
    cases hash with
    | true =>
      rw [show ws1 ++ (if true then ['#'] else []) ++ ws2 ++ ('*' :: r')
          = ws1 ++ ('#' :: (ws2 ++ '*' :: r')) from by simp]
      rw [dropWhile_append_of_all isPySpace ws1 _ hw1]
      rw [List.dropWhile_cons, if_neg (by decide)]
      rw [legacyHashSkip, if_pos rfl]
      rw [dropWhile_append_of_all isPySpace ws2 _ hw2, hstar]
    | false =>
      rw [show ws1 ++ (if false then ['#'] else []) ++ ws2 ++ ('*' :: r')
          = ws1 ++ (ws2 ++ '*' :: r') from by simp]
      rw [dropWhile_append_of_all isPySpace ws1 _ hw1,
        dropWhile_append_of_all isPySpace ws2 _ hw2, hstar, hskipStar]
  unfold legacyMatch
  rw [hcore, hstar, hskipStar]

/-- The NPM banner pattern is used with `re.match` and starts with the
literal `;`, so it fails on any line whose first character is not `;`. -/
theorem npmLit_not_prefix (c : Char) (r : List Char) (hc : c ≠ ';') :
    npmLit.isPrefixOf (c :: r) = false := by
  rw [show npmLit.isPrefixOf (c :: r)
      = ((';' == c) && (" *** IR Dump After ".data.isPrefixOf r)) from rfl]
  have h : (';' == c) = false := by
    rw [beq_eq_false_iff_ne]
    exact Ne.symm hc
  rw [h, Bool.false_and]

theorem npmMatch_not_semi (c : Char) (r : List Char) (hc : c ≠ ';') :
    npmMatch (c :: r) = none := by
  rw [npmMatch, npmLit_not_prefix c r hc]
  rfl

/-- Right-stripping yields a prefix of the original line. -/
theorem rstrip_prefix (l : List Char) : ∃ t, l = rstripChars l ++ t := by
  obtain ⟨t, ht⟩ := List.dropWhile_suffix (l := l.reverse) isPySpace
  refine ⟨t.reverse, ?_⟩
  rw [rstripChars]
  calc l = l.reverse.reverse := (List.reverse_reverse l).symm
    _ = (t ++ l.reverse.dropWhile isPySpace).reverse := by rw [ht]
    _ = (l.reverse.dropWhile isPySpace).reverse ++ t.reverse := by
        rw [List.reverse_append]

/-- Right-stripping a non-empty line gives the empty line or keeps the
original first character. -/
theorem rstrip_cons_shape (c : Char) (r : List Char) :
    rstripChars (c :: r) = [] ∨ ∃ r2, rstripChars (c :: r) = c :: r2 := by
  obtain ⟨t, ht⟩ := rstrip_prefix (c :: r)
  cases hs : rstripChars (c :: r) with
  | nil => exact Or.inl rfl
  | cons d ds =>
    right
    rw [hs] at ht
    have hc : c = d := by
      have h2 := congrArg List.head? ht
      simpa using h2
    exact ⟨ds, by rw [hc]⟩

/-- A line with a non-empty whitespace prefix is never matched by the
NPM banner pattern: right-stripping keeps the leading whitespace, and
the anchored pattern requires `;` first. -/
theorem npmMatch_ws_prefixed (ws l : List Char) (hne : ws ≠ [])
    (hws : ∀ c ∈ ws, isPySpace c = true) :
    npmMatch (rstripChars (ws ++ l)) = none := by
  cases ws with
  | nil => exact absurd rfl hne
  | cons c w' =>
    have hc : isPySpace c = true := hws c (List.mem_cons_self _ _)
    have hcns : c ≠ ';' := fun he => absurd (he ▸ hc) (by decide)
    rw [List.cons_append]
    rcases rstrip_cons_shape c (w' ++ l) with h | ⟨r2, h⟩
    · rw [h]; rfl
    · rw [h]; exact npmMatch_not_semi c r2 hcns

/-- Claim C7, amended.  Dialect A (legacy) tolerates a prefix of
whitespace, an optional `#` marker and more whitespace before the
banner, producing a header with the same canonical name, scope and
target; dialect B (NPM) does not: a banner line preceded by any
non-empty leading whitespace is not recognized at all — wherever it
occurs in the file it contributes no header — while the unprefixed
banner is recognized. -/
theorem claim_C7_amended :
    (∀ (ws1 ws2 r' : List Char) (hash : Bool),
      (∀ c ∈ ws1, isPySpace c = true) → (∀ c ∈ ws2, isPySpace c = true) →
      (findLegacyHeaders
          [ws1 ++ (if hash then ['#'] else []) ++ ws2 ++ ('*' :: r')]).map
          (fun h => (h.pass_name, h.dump_type, h.target))
        = (findLegacyHeaders [('*' :: r')]).map
            (fun h => (h.pass_name, h.dump_type, h.target))) ∧
    (∀ (ws l : List Char) (ln : Nat) (rest : List (List Char)),
      ws ≠ [] → (∀ c ∈ ws, isPySpace c = true) →
      findNpmHeadersAux ln ((ws ++ l) :: rest)
        = findNpmHeadersAux (ln + 1) rest) ∧
    (∀ (ws l : List Char), ws ≠ [] → (∀ c ∈ ws, isPySpace c = true) →
      findNpmHeaders [ws ++ l] = []) ∧
    findNpmHeaders ["; *** IR Dump After f on g ***".data] ≠ [] := by
  have hnpm : ∀ (ws l : List Char) (ln : Nat) (rest : List (List Char)),
      ws ≠ [] → (∀ c ∈ ws, isPySpace c = true) →
      findNpmHeadersAux ln ((ws ++ l) :: rest)
        = findNpmHeadersAux (ln + 1) rest := by
    intro ws l ln rest hne hws
    conv_lhs => rw [findNpmHeadersAux]
    rw [npmMatch_ws_prefixed ws l hne hws]
  have hsingle : ∀ (ws l : List Char), ws ≠ [] →
      (∀ c ∈ ws, isPySpace c = true) → findNpmHeaders [ws ++ l] = [] := by
    intro ws l hne hws
    show findNpmHeadersAux 1 [ws ++ l] = []
    rw [hnpm ws l 1 [] hne hws]
    rfl
  refine ⟨?_, hnpm, hsingle, by decide⟩
  intro ws1 ws2 r' hash hw1 hw2
  have hsp : isPySpace '*' = false := by decide
  have hr1 : rstripChars (ws1 ++ (if hash then ['#'] else []) ++ ws2 ++
      ('*' :: r')) = ws1 ++ (if hash then ['#'] else []) ++ ws2 ++
      ('*' :: rstripChars r') := by
    rw [show ws1 ++ (if hash then ['#'] else []) ++ ws2 ++ ('*' :: r')
        = (ws1 ++ (if hash then ['#'] else []) ++ ws2) ++ '*' :: r' from by
          simp]
    rw [rstrip_append_of_not_space hsp]
  have hr2 : rstripChars ('*' :: r') = '*' :: rstripChars r' := by
    have := rstrip_append_of_not_space hsp [] r'
    simpa using this
  have hm : legacyMatch (rstripChars (ws1 ++ (if hash then ['#'] else []) ++
      ws2 ++ ('*' :: r'))) = legacyMatch (rstripChars ('*' :: r')) := by
    rw [hr1, hr2]
    exact legacyMatch_prefix ws1 ws2 (rstripChars r') hash hw1 hw2
  show (findLegacyHeadersAux 1 [_]).map _ = (findLegacyHeadersAux 1 [_]).map _
  conv_lhs => rw [findLegacyHeadersAux]
  conv_rhs => rw [findLegacyHeadersAux]
  rw [hm]
  cases legacyMatch (rstripChars ('*' :: r')) with
  | none => rfl
  | some g => rfl

/-- Claim C7 counterexample: a leading-whitespace NPM banner is not
recognized, while the same line without the prefix is. -/
theorem claim_C7_counterexample :
    findNpmHeaders ["  ; *** IR Dump After f on g ***".data] = [] ∧
    (findNpmHeaders ["; *** IR Dump After f on g ***".data]).map
      ParsedHeader.pass_name = ["f"] := by
  exact ⟨rfl, rfl⟩

/-- Witness for C7: a concrete prefixed legacy banner recognized with
the same canonical name as the unprefixed line, and a concrete
space-prefixed NPM banner recognized nowhere. -/
theorem claim_C7_witness :
    ((findLegacyHeaders
        [[' '] ++ (if true then ['#'] else []) ++ [' '] ++
          ('*' :: "** IR Dump After Foo (bar) ***".data)]).map
        (fun h => (h.pass_name, h.dump_type, h.target))
      = (findLegacyHeaders [('*' :: "** IR Dump After Foo (bar) ***".data)]).map
          (fun h => (h.pass_name, h.dump_type, h.target))) ∧
    findNpmHeaders
      [[' ', ' '] ++ "; *** IR Dump After f on g ***".data] = [] :=
  ⟨claim_C7_amended.1 [' '] [' '] "** IR Dump After Foo (bar) ***".data true
    (by decide) (by decide),
   claim_C7_amended.2.2.1 [' ', ' '] "; *** IR Dump After f on g ***".data
    (by decide) (by decide)⟩

end IRDA
